import Mathlib

/-
Verification of the tagexplorer engine: a shallow embedding of the
filename tag grammar, renamer, organize planner/executor/undo, scanner
and settings logic, with theorems checking the specification claims.

Go strings are modelled as lists of runes (Lean `Char`); the byte-level
Go string functions coincide with the rune-level ones here because every
needle used by the engine is a whole-rune string.
-/

namespace TagExplorer

/-- Go strings, modelled as lists of runes. -/
abbrev Str := List Char

/-- Convert a Lean string literal to the rune-list model. -/
def strOf (s : String) : Str := s.data

/-- strings.HasPrefix. -/
def goHasPre (s pat : Str) : Bool := pat.isPrefixOf s

/-- strings.HasSuffix. -/
def goHasSuf (s pat : Str) : Bool := pat.isSuffixOf s

/-- All indices i such that pat occurs in s at position i (0-based). -/
def matchPositionsAux : Str → Str → Nat → List Nat
  | s, pat, i =>
    let here := if pat.isPrefixOf s then [i] else []
    match s with
    | [] => here
    | _ :: rest => here ++ matchPositionsAux rest pat (i + 1)

/-- All occurrence positions of pat in s. -/
def matchPositions (s pat : Str) : List Nat := matchPositionsAux s pat 0

/-- strings.Index, as an Option instead of -1. -/
def goIndex (s pat : Str) : Option Nat := (matchPositions s pat).head?

/-- strings.LastIndex, as an Option instead of -1. -/
def goLastIndex (s pat : Str) : Option Nat := (matchPositions s pat).getLast?

/-- strings.Contains. -/
def goContains (s pat : Str) : Bool := (goIndex s pat).isSome

/-- Go slice expression s[a:b] (the engine only slices in range). -/
def goSlice (s : Str) (a b : Nat) : Str := (s.take b).drop a

/-- strings.TrimLeft(s, " "). -/
def trimLeftSp (s : Str) : Str := s.dropWhile (fun c => c = ' ')

/-- strings.TrimRight(s, " "). -/
def trimRightSp (s : Str) : Str := (s.reverse.dropWhile (fun c => c = ' ')).reverse

/-- The white-space runes recognised by unicode.IsSpace that can occur in
file names handled by the engine (ASCII spaces, NEL and NBSP). -/
def isGoSpace (c : Char) : Bool :=
  c = ' ' || c = '\t' || c = '\n' || c = Char.ofNat 13 || c = Char.ofNat 11 ||
    c = Char.ofNat 12 || c = Char.ofNat 133 || c = Char.ofNat 160

/-- Drop leading white space (half of strings.TrimSpace). -/
def trimStartSpc (s : Str) : Str := s.dropWhile isGoSpace

/-- Drop trailing white space (half of strings.TrimSpace). -/
def trimEndSpc (s : Str) : Str := (s.reverse.dropWhile isGoSpace).reverse

/-- strings.TrimSpace. -/
def goTrimSpace (s : Str) : Str := trimEndSpc (trimStartSpc s)

/-- strings.Trim(s, cutset) for a character cutset. -/
def goTrimCutset (cut : List Char) (s : Str) : Str :=
  ((s.dropWhile (fun c => c ∈ cut)).reverse.dropWhile (fun c => c ∈ cut)).reverse

/-- strings.TrimSuffix. -/
def goTrimEndStr (s suf : Str) : Str :=
  if goHasSuf s suf then goSlice s 0 (s.length - suf.length) else s

/-- strings.Split (non-overlapping, left to right), with fuel. -/
def goSplitAux : Nat → Str → Str → List Str
  | 0, s, _ => [s]
  | f + 1, s, sep =>
    match goIndex s sep with
    | none => [s]
    | some i => goSlice s 0 i :: goSplitAux f (s.drop (i + sep.length)) sep

/-- strings.Split. -/
def goSplit (s sep : Str) : List Str :=
  if sep.isEmpty then s.map (fun c => [c]) else goSplitAux (s.length + 1) s sep

/-- strings.Join. -/
def goJoin (sep : Str) : List Str → Str
  | [] => []
  | [x] => x
  | x :: y :: rest => x ++ sep ++ goJoin sep (y :: rest)

/-- filepath.Ext on a basename: everything from the final dot onward. -/
def goExt (s : Str) : Str :=
  match goLastIndex s ['.'] with
  | some i => s.drop i
  | none => []

/- ### Settings data model (internal/api/types.go) -/

/-- api.CustomFormat: the user-supplied opener, closer and separator. -/
structure CustomFmt where
  opn : Str
  cls : Str
  sepStr : Str
deriving DecidableEq

/-- api.TagRuleConfig. -/
structure TagRuleConfig where
  format : String
  customFormat : Option CustomFmt
  position : String
  addSpaces : Bool
  grouping : String
deriving DecidableEq

/-- api.AppSettings. -/
structure AppSettings where
  tagRule : TagRuleConfig
deriving DecidableEq

/-- The default settings installed by App.startup. -/
def defaultSettings : AppSettings :=
  ⟨⟨"square_brackets", none, "suffix", true, "combined"⟩⟩

/- ### Filename sanitisation and tag-block formatting (app.go) -/

/-- Character-wise effect of the replacement chain in sanitizeFileNamePart. -/
def sanChar (c : Char) : Char :=
  if c = '|' then '丨'
  else if c = '<' then '＜'
  else if c = '>' then '＞'
  else if c = ':' then '：'
  else if c = '"' then Char.ofNat 39
  else if c = '?' then '？'
  else if c = '*' then '＊'
  else c

/-- sanitizeFileNamePart: replace Windows-invalid characters, drop control
characters below 32 except tab, trim spaces and dots, default to an
underscore when empty. -/
def sanitizeFileNamePart (input : Str) : Str :=
  if input = [] then input
  else
    let replaced := input.map sanChar
    let cleaned := replaced.filter (fun c => 32 ≤ c.toNat || c = '\t')
    let trimmed := goTrimCutset [' ', '.'] cleaned
    if trimmed = [] then ['_'] else trimmed

/-- The opener, closer and separator selected by formatTagsText's format
switch (custom pieces are sanitised like tag names). -/
def fmtTriple (cfg : TagRuleConfig) : Str × Str × Str :=
  if cfg.format = "brackets" then (strOf "<", strOf ">", strOf ", ")
  else if cfg.format = "square_brackets" then (strOf "[", strOf "]", strOf ", ")
  else if cfg.format = "parentheses" then (strOf "(", strOf ")", strOf ", ")
  else if cfg.format = "custom" then
    match cfg.customFormat with
    | some cf => (sanitizeFileNamePart cf.opn, sanitizeFileNamePart cf.cls,
        sanitizeFileNamePart cf.sepStr)
    | none => (strOf "[", strOf "]", strOf ", ")
  else (strOf "[", strOf "]", strOf ", ")

/-- formatTagsText: build the tag block from the already-looked-up tag
names under the configured grammar — one block per sanitised name in
individual grouping, one separator-joined block otherwise, the whole
result sanitised again. -/
def formatTagsText (cfg : TagRuleConfig) (tagNames : List Str) : Str :=
  if tagNames = [] then []
  else if cfg.grouping = "individual" then
    sanitizeFileNamePart (goJoin []
      ((tagNames.map sanitizeFileNamePart).map
        (fun n => (fmtTriple cfg).1 ++ n ++ (fmtTriple cfg).2.1)))
  else
    sanitizeFileNamePart ((fmtTriple cfg).1
      ++ goJoin (fmtTriple cfg).2.2 (tagNames.map sanitizeFileNamePart)
      ++ (fmtTriple cfg).2.1)

/- ### Tag-block stripping (removeTagsFromFileName and helpers) -/

/-- isValidTagContent: block interiors may contain neither bracket. -/
def isValidTagContent (content opn cls : Str) : Bool :=
  !goContains content opn && !goContains content cls

/-- removeAllSuffixTags, with fuel standing in for the Go loop. -/
def removeAllSuffixTags : Nat → Str → Str → Str → Str
  | 0, result, _, _ => result
  | f + 1, result, opn, cls =>
    if goHasSuf result cls then
      match goLastIndex result opn with
      | none => result
      | some lastIdx =>
        let content := goSlice result (lastIdx + opn.length) (result.length - cls.length)
        if isValidTagContent content opn cls then
          removeAllSuffixTags f (trimRightSp (goSlice result 0 lastIdx)) opn cls
        else result
    else result

/-- removeAllPrefixTags, with fuel standing in for the Go loop. -/
def removeAllPrefixTags : Nat → Str → Str → Str → Str
  | 0, result, _, _ => result
  | f + 1, result, opn, cls =>
    if goHasPre result opn then
      match goIndex result cls with
      | none => result
      | some firstIdx =>
        let content := goSlice result opn.length firstIdx
        if isValidTagContent content opn cls then
          removeAllPrefixTags f (trimLeftSp (result.drop (firstIdx + cls.length))) opn cls
        else result
    else result

/-- The bracket pairs tried by removeTagsFromFileName, in source order;
the configured custom pair is appended when present. -/
def stripFormats (s : AppSettings) : List (Str × Str) :=
  let base := [(strOf "[", strOf "]"), (strOf "<", strOf ">"), (strOf "(", strOf ")")]
  if s.tagRule.format = "custom" then
    match s.tagRule.customFormat with
    | some cf => base ++ [(cf.opn, cf.cls)]
    | none => base
  else base

/-- One sweep of the strip loop: remove suffix-side then prefix-side
blocks for every format, skipping formats with an empty bracket. -/
def stripPass (fmts : List (Str × Str)) (s0 : Str) : Str :=
  fmts.foldl
    (fun acc pq =>
      if pq.1 = [] || pq.2 = [] then acc
      else
        let acc1 := removeAllSuffixTags (acc.length + 1) acc pq.1 pq.2
        removeAllPrefixTags (acc1.length + 1) acc1 pq.1 pq.2)
    s0

/-- The bounded sweep-until-fixpoint loop of removeTagsFromFileName. -/
def stripLoop (fmts : List (Str × Str)) : Nat → Str → Str
  | 0, r => r
  | n + 1, r =>
    let r' := stripPass fmts r
    if r' = r then r else stripLoop fmts n r'

/-- removeTagsFromFileName: run at most 20 sweeps, then trim white space. -/
def removeTagsFromFileName (s : AppSettings) (nameNoExt : Str) : Str :=
  goTrimSpace (stripLoop (stripFormats s) 20 nameNoExt)

/- ### Filename tag parsing (parseTagsFromFileName and helpers) -/

/-- splitTags: split on the separator, trim each piece, drop empties. -/
def splitTags (tagsPart sep : Str) : List Str :=
  (goSplit tagsPart sep).foldr
    (fun t acc => let c := goTrimSpace t; if c = [] then acc else c :: acc) []

/-- The front-to-back loop of parseIndividualTags (position "prefix"). -/
def parseIndAtFront : Nat → Str → Str → Str → List Str
  | 0, _, _, _ => []
  | f + 1, remaining, opn, cls =>
    if goHasPre remaining opn then
      match goIndex remaining cls with
      | none => []
      | some endIdx =>
        let tagName := goSlice remaining opn.length endIdx
        let rest := trimLeftSp (remaining.drop (endIdx + cls.length))
        let tl := parseIndAtFront f rest opn cls
        if tagName = [] then tl else goTrimSpace tagName :: tl
    else []

/-- The back-to-front loop of parseIndividualTags (position "suffix"). -/
def parseIndAtBack : Nat → Str → Str → Str → List Str
  | 0, _, _, _ => []
  | f + 1, remaining, opn, cls =>
    if goHasSuf remaining cls then
      match goLastIndex remaining opn with
      | none => []
      | some startIdx =>
        let tagName := goSlice remaining (startIdx + opn.length) (remaining.length - cls.length)
        let rest := trimRightSp (goSlice remaining 0 startIdx)
        let front := parseIndAtBack f rest opn cls
        if tagName = [] then front else front ++ [goTrimSpace tagName]
    else []

/-- parseIndividualTags: peel one-tag blocks from the configured end. -/
def parseIndividualTags (position : String) (s : Str) (opn cls : Str) : List Str :=
  if position = "prefix" then parseIndAtFront (s.length + 1) s opn cls
  else parseIndAtBack (s.length + 1) s opn cls

/-- The format tuples tried by parseTagsFromFileName, in source order. -/
def parseFormats (s : AppSettings) : List (Str × Str × Str) :=
  let base := [(strOf "[", strOf "]", strOf ", "), (strOf "<", strOf ">", strOf ", "),
    (strOf "(", strOf ")", strOf ", ")]
  if s.tagRule.format = "custom" then
    match s.tagRule.customFormat with
    | some cf => base ++ [(cf.opn, cf.cls, cf.sepStr)]
    | none => base
  else base

/-- The per-format attempt chain of parseTagsFromFileName: individual
layout first, then combined at the suffix, then combined at the front. -/
def tryParseFormats (position : String) (nameNoExt : Str) : List (Str × Str × Str) → List Str
  | [] => []
  | f :: rest =>
    let opn := f.1
    let cls := f.2.1
    let sep := f.2.2
    if opn = [] || cls = [] then tryParseFormats position nameNoExt rest
    else
      let ind := parseIndividualTags position nameNoExt opn cls
      if ind ≠ [] then ind
      else
        let sufTags :=
          if goHasSuf nameNoExt cls then
            match goLastIndex nameNoExt opn with
            | some idx =>
              let part := goSlice nameNoExt (idx + opn.length) (nameNoExt.length - cls.length)
              if part ≠ [] then splitTags part sep else []
            | none => []
          else []
        if sufTags ≠ [] then sufTags
        else
          let preTags :=
            if goHasPre nameNoExt opn then
              match goIndex nameNoExt cls with
              | some idx =>
                let part := goSlice nameNoExt opn.length idx
                if part ≠ [] then splitTags part sep else []
              | none => []
            else []
          if preTags ≠ [] then preTags else tryParseFormats position nameNoExt rest

/-- parseTagsFromFileName. -/
def parseTagsFromFileName (s : AppSettings) (fileName : Str) : List Str :=
  let ext := goExt fileName
  let nameNoExt := goTrimEndStr fileName ext
  tryParseFormats s.tagRule.position nameNoExt (parseFormats s)

/-- generateFileNameWithTags: strip old blocks and re-encode the tag list. -/
def generateFileNameWithTags (s : AppSettings) (originalName : Str) (tagNames : List Str) : Str :=
  if tagNames = [] then
    removeTagsFromFileName s (goTrimEndStr originalName (goExt originalName))
      ++ goExt originalName
  else if formatTagsText s.tagRule tagNames = [] then
    removeTagsFromFileName s (goTrimEndStr originalName (goExt originalName))
      ++ goExt originalName
  else if s.tagRule.position = "prefix" then
    (formatTagsText s.tagRule tagNames
        ++ (if s.tagRule.addSpaces then [' '] else [])
        ++ removeTagsFromFileName s (goTrimEndStr originalName (goExt originalName)))
      ++ goExt originalName
  else
    (removeTagsFromFileName s (goTrimEndStr originalName (goExt originalName))
        ++ (if s.tagRule.addSpaces then [' '] else [])
        ++ formatTagsText s.tagRule tagNames)
      ++ goExt originalName


/- ### Renamer and organize executor state machine (app.go)

The file system is modelled as the finite set of absolute paths that
exist on disk; os.Rename moves an existing source onto an absent target
(the engine never renames onto an existing path: RenameFile stats the
target first and the organize planner rejects occupied targets).
Fallible external effects that the claims quantify over — the relpath
computation and the database row update — carry explicit success flags. -/

/-- The on-disk state: the set of absolute paths that currently exist. -/
structure Disk where
  entries : Finset String
deriving DecidableEq

/-- os.Rename: move src onto an absent dst. -/
def diskRename (d : Disk) (src dst : String) : Option Disk :=
  if src ∈ d.entries ∧ dst ∉ d.entries then some ⟨insert dst (d.entries.erase src)⟩
  else none

/-- One row of the files table as the renamer sees it. -/
structure DbRow where
  fileId : Int
  name : String
  relPath : String
deriving DecidableEq

/-- Database.GetFileByID, over the row list. -/
def getFileRow (rows : List DbRow) (id : Int) : Option DbRow :=
  rows.find? (fun r => r.fileId == id)

/-- Database.UpdateFileName: update one row; fails when the row is gone
or when the injected fault flag is off. -/
def updateFileNameDb (dbOk : Bool) (rows : List DbRow) (id : Int) (nm rp : String) :
    Option (List DbRow) :=
  if dbOk = false then none
  else if rows.any (fun r => r.fileId == id) then
    some (rows.map (fun r => if r.fileId == id then ⟨r.fileId, nm, rp⟩ else r))
  else none

/-- filepath.Join for an absolute base and a relative tail. -/
def joinPath (a b : String) : String := a ++ "/" ++ b

/-- Recover a Lean string from the rune-list model. -/
def ofStr (l : Str) : String := ⟨l⟩

/-- filepath.Base. -/
def baseOf (p : String) : String := ofStr ((p.data.reverse.takeWhile (fun c => c ≠ '/')).reverse)

/-- filepath.Dir. -/
def dirOf (p : String) : String :=
  ofStr (((p.data.reverse.dropWhile (fun c => c ≠ '/')).reverse).dropLast)

/-- filepath.Rel(ws, p) for p strictly below ws. -/
def relOf (ws p : String) : String := ofStr (p.data.drop (ws.data.length + 1))

/-- Errors surfaced by the rename and organize paths. -/
inductive RenameError
  | emptyName
  | getFileFailed
  | targetExists
  | renameFailed
  | relFailed
  | dbFailed
  | planStale
  | mkdirFailed
deriving DecidableEq

/-- Disk plus files-table state manipulated by the renamer and executor. -/
structure EngineState where
  disk : Disk
  rows : List DbRow
deriving DecidableEq

/-- The absolute path of the row as RenameFile computes it. -/
def renameOldAbs (wsPath : String) (file : DbRow) : String := joinPath wsPath file.relPath

/-- The absolute target path as RenameFile computes it. -/
def renameNewAbs (wsPath : String) (file : DbRow) (newName : String) : String :=
  joinPath (dirOf (joinPath wsPath file.relPath)) newName

/-- App.RenameFile: stat the target, rename on disk, then update the row.
On a relpath or database failure the reverse rename is attempted and its
own error discarded, written here as Option.getD. -/
def RenameFile (wsPath : String) (st : EngineState) (fileId : Int) (newName : String)
    (relOk dbOk : Bool) : EngineState × Option RenameError :=
  if newName = "" then (st, some .emptyName)
  else
    match getFileRow st.rows fileId with
    | none => (st, some .getFileFailed)
    | some file =>
      if renameNewAbs wsPath file newName ∈ st.disk.entries then (st, some .targetExists)
      else
        match diskRename st.disk (renameOldAbs wsPath file)
            (renameNewAbs wsPath file newName) with
        | none => (st, some .renameFailed)
        | some d1 =>
          if relOk = false then
            ({ st with disk := (diskRename d1 (renameNewAbs wsPath file newName)
                (renameOldAbs wsPath file)).getD d1 }, some .relFailed)
          else
            match updateFileNameDb dbOk st.rows fileId newName
                (relOf wsPath (renameNewAbs wsPath file newName)) with
            | none =>
              ({ st with disk := (diskRename d1 (renameNewAbs wsPath file newName)
                  (renameOldAbs wsPath file)).getD d1 }, some .dbFailed)
            | some rows2 => (⟨d1, rows2⟩, none)

/-- One planned move, as the executor receives it. -/
structure OrgItem where
  fileId : Int
  originalPath : String
  targetPath : String
deriving DecidableEq

/-- One journalled move record. -/
structure MoveRecord where
  fileId : Int
  fromPath : String
  toPath : String
deriving DecidableEq

/-- App.performOrganizeMove: staleness check, mkdir, rename, row update
with a best-effort reverse rename on a database failure. -/
def performOrganizeMove (wsPath : String) (st : EngineState) (item : OrgItem)
    (mkdirOk dbOk : Bool) : EngineState × Option MoveRecord × Option RenameError :=
  match getFileRow st.rows item.fileId with
  | none => (st, none, some .getFileFailed)
  | some file =>
    if file.relPath ≠ item.originalPath then (st, none, some .planStale)
    else if mkdirOk = false then (st, none, some .mkdirFailed)
    else
      match diskRename st.disk (joinPath wsPath item.originalPath)
          (joinPath wsPath item.targetPath) with
      | none => (st, none, some .renameFailed)
      | some d1 =>
        match updateFileNameDb dbOk st.rows item.fileId (baseOf (joinPath wsPath item.targetPath))
            item.targetPath with
        | none =>
          ({ st with disk := (diskRename d1 (joinPath wsPath item.targetPath)
              (joinPath wsPath item.originalPath)).getD d1 }, none, some .dbFailed)
        | some rows2 => (⟨d1, rows2⟩, some ⟨item.fileId, item.originalPath, item.targetPath⟩, none)

/-- App.rollbackOrganizeMove: rename the file back and update its row;
returns the state after the attempt plus a success flag. -/
def rollbackOrganizeMove (wsPath : String) (st : EngineState) (rec : MoveRecord) :
    EngineState × Bool :=
  let srcAbs := joinPath wsPath rec.toPath
  let dstAbs := joinPath wsPath rec.fromPath
  match diskRename st.disk srcAbs dstAbs with
  | none => (st, false)
  | some d1 =>
    match updateFileNameDb true st.rows rec.fileId (baseOf dstAbs) rec.fromPath with
    | none => ({ st with disk := d1 }, false)
    | some rows2 => (⟨d1, rows2⟩, true)

/-- One journal entry of the operations table. -/
structure OperationRec where
  opId : Int
  opType : String
  wsId : Int
  moves : List MoveRecord
deriving DecidableEq

/-- Database.GetOperation, over the journal list. -/
def findOperation (ops : List OperationRec) (id : Int) : Option OperationRec :=
  ops.find? (fun o => o.opId == id)

/-- Database.DeleteOperation. -/
def deleteOperation (ops : List OperationRec) (id : Int) : List OperationRec :=
  ops.filter (fun o => o.opId != id)

/-- The Go loop of UndoOrganize runs i from len-1 down to 0, so the head
of the payload is processed last: recurse on the tail first. -/
def undoMovesGo (wsPath : String) : List MoveRecord → EngineState → EngineState × Nat × Nat
  | [], st => (st, 0, 0)
  | m :: rest, st =>
    let out := undoMovesGo wsPath rest st
    let step := rollbackOrganizeMove wsPath out.1 m
    if step.2 then (step.1, out.2.1 + 1, out.2.2) else (step.1, out.2.1, out.2.2 + 1)

/-- Reference formulation: a plain left fold over the reversed payload. -/
def undoFoldRev (wsPath : String) (moves : List MoveRecord) (st : EngineState) :
    EngineState × Nat × Nat :=
  moves.reverse.foldl
    (fun acc m =>
      let step := rollbackOrganizeMove wsPath acc.1 m
      if step.2 then (step.1, acc.2.1 + 1, acc.2.2) else (step.1, acc.2.1, acc.2.2 + 1))
    (st, 0, 0)

/-- App.UndoOrganize: guards, reverse iteration, delete-on-full-success. -/
def UndoOrganize (wsPath : String) (curWsId : Int) (ops : List OperationRec)
    (st : EngineState) (operationId : Int) :
    Except String (EngineState × Nat × Nat × List OperationRec) :=
  if operationId ≤ 0 then .error "invalid operation id"
  else
    match findOperation ops operationId with
    | none => .error "operation not found"
    | some op =>
      if op.opType ≠ "organize" then .error "operation type mismatch"
      else if op.wsId ≠ curWsId then .error "workspace mismatch"
      else
        let out := undoMovesGo wsPath op.moves st
        let ops' := if out.2.2 = 0 then deleteOperation ops operationId else ops
        .ok (out.1, out.2.1, out.2.2, ops')

/- ### Scanner and files table (internal/workspace/scanner.go, internal/data) -/

/-- The directory names skipped by the scanner (compared lower-cased). -/
def skipDirs : List String :=
  ["node_modules", ".git", ".svn", ".hg", "$recycle.bin", "system volume information",
    ".trash", ".ds_store", "__pycache__", ".venv", "venv", ".idea", ".vscode",
    "vendor", "dist", "build", ".cache", ".npm", ".yarn"]

/-- ASCII lower-casing of a rune list (strings.ToLower on these names). -/
def lowerStr (s : Str) : Str := s.map Char.toLower

/-- workspace.shouldSkipDir. -/
def shouldSkipDir (name : String) : Bool :=
  if goHasPre name.data (strOf "$") then true
  else (skipDirs.map strOf).contains (lowerStr name.data)

mutual
/-- A directory subtree as the walk sees it: names, sizes, mtimes. -/
inductive FsNode where
  | mkFile (name : String) (size : Nat) (mtime : Int)
  | mkDir (name : String) (mtime : Int) (children : FsForest)

/-- A listing of sibling entries, in walk order. -/
inductive FsForest where
  | nil
  | cons (hd : FsNode) (tl : FsForest)
end

/-- One WalkDir visit, after the callback computed the relative path. -/
structure WalkEntry where
  rel : String
  entName : String
  size : Nat
  isDir : Bool
  mtime : Int
deriving DecidableEq

/-- filepath.Rel composition below the root: "" joins to the bare name. -/
def joinRel (p n : String) : String := if p = "" then n else p ++ "/" ++ n

mutual
/-- The WalkDir visit sequence for one non-root node. -/
def walkNode (r : String) : FsNode → List WalkEntry
  | .mkFile n sz mt => [⟨joinRel r n, n, sz, false, mt⟩]
  | .mkDir n mt kids =>
    if shouldSkipDir n then []
    else ⟨joinRel r n, n, 0, true, mt⟩ :: walkKids (joinRel r n) kids

/-- The WalkDir visit sequence for a sibling listing. -/
def walkKids (r : String) : FsForest → List WalkEntry
  | .nil => []
  | .cons c cs => walkNode r c ++ walkKids r cs
end

/-- The full WalkDir visit sequence: the root itself is visited first and
its filepath.Rel result "." is normalised to the empty relative path. -/
def walkTree : FsNode → List WalkEntry
  | .mkFile n sz mt => [⟨"", n, sz, false, mt⟩]
  | .mkDir n mt kids =>
    if shouldSkipDir n then [] else ⟨"", n, 0, true, mt⟩ :: walkKids "" kids

mutual
/-- Real directory entries have non-empty names. -/
def namesOk : FsNode → Bool
  | .mkFile n _ _ => n ≠ ""
  | .mkDir n _ kids => n ≠ "" && namesOkForest kids

/-- namesOk over a sibling listing. -/
def namesOkForest : FsForest → Bool
  | .nil => true
  | .cons c cs => namesOk c && namesOkForest cs
end

/-- data.FileMetadata as built by the scan callback. -/
structure FileMetadata where
  wsId : Int
  path : String
  name : String
  size : Nat
  typ : String
  modTime : Int
  createdAt : Int
  hash : String
deriving DecidableEq

/-- The scan callback body: relpath, name, size, kind, identity token. -/
def metadataOfEntry (wsId : Int) (now : Int) (e : WalkEntry) : FileMetadata :=
  if e.isDir then ⟨wsId, e.rel, e.entName, 0, "dir", e.mtime, now, ""⟩
  else ⟨wsId, e.rel, e.entName, e.size, "file", e.mtime, now,
    e.rel ++ "_" ++ toString e.size ++ "_" ++ toString e.mtime⟩

/-- One row of the files table, id and insertion timestamp included. -/
structure FileRow where
  rid : Nat
  wsId : Int
  path : String
  name : String
  size : Nat
  typ : String
  modTime : Int
  createdAt : Int
  hash : String
deriving DecidableEq

/-- The files table: AUTOINCREMENT counter plus rows in insertion order. -/
structure FilesTable where
  nextId : Nat
  rows : List FileRow
deriving DecidableEq

/-- FileImportSession.Insert: assign fresh AUTOINCREMENT ids in order. -/
def insertRows (n : Nat) : List FileMetadata → List FileRow × Nat
  | [] => ([], n)
  | m :: rest =>
    let out := insertRows (n + 1) rest
    (⟨n, m.wsId, m.path, m.name, m.size, m.typ, m.modTime, m.createdAt, m.hash⟩ :: out.1, out.2)

/-- NewFileImportSession + Insert + Commit: delete every row of the
workspace, then insert the streamed metadata with fresh ids. -/
def importReplaceFiles (tbl : FilesTable) (wsId : Int) (metas : List FileMetadata) : FilesTable :=
  ⟨(insertRows tbl.nextId metas).2,
    tbl.rows.filter (fun r => r.wsId != wsId) ++ (insertRows tbl.nextId metas).1⟩

/-- Scanner.Scan under a quiescent file system: walk the tree and replace
the workspace rows inside one import session. -/
def scanWorkspace (tbl : FilesTable) (wsId : Int) (now : Int) (tree : FsNode) : FilesTable :=
  importReplaceFiles tbl wsId ((walkTree tree).map (metadataOfEntry wsId now))

/-- The workspace of the worked scan examples. -/
def sampleTree : FsNode := .mkDir "ws" 50 (.cons (.mkFile "a.txt" 3 100) .nil)

/- ### Organize planner (app.go buildOrganizePlan, sanitizeFolderSegment) -/

/-- One level of an organize request. -/
structure OrgLevel where
  tagIDs : List Int
deriving DecidableEq

/-- Character-wise effect of the replacer in sanitizeFolderSegment:
every Windows-invalid character and both slashes become an underscore,
square brackets are dropped. -/
def segChar (c : Char) : Option Char :=
  if c = '[' || c = ']' then none
  else if c = '<' || c = '>' || c = ':' || c = '"' || c = '/' || c = '\\' ||
      c = '|' || c = '?' || c = '*' then some '_'
  else some c

/-- sanitizeFolderSegment. -/
def sanitizeFolderSegment (name : Str) : Str :=
  if (goTrimSpace name).filterMap segChar = [] then strOf "未命名"
  else (goTrimSpace name).filterMap segChar

/-- The folder segment built for one level: the sanitised tag names in
the order the level lists them, each wrapped in square brackets. -/
def buildFolderSegment (ids : List Int) (tagName : Int → Str) : Str :=
  let names := ids.map (fun i => sanitizeFolderSegment (tagName i))
  strOf "[" ++ goJoin (strOf "][") names ++ strOf "]"

/-- The missing-tag names accumulated by buildOrganizePlan for one file:
level-major, then in the order the level lists its tag ids. -/
def computeMissingTags (levels : List OrgLevel) (tagName : Int → Str) (hasTag : Int → Bool) :
    List Str :=
  levels.flatMap (fun lv => (lv.tagIDs.filter (fun i => !hasTag i)).map tagName)

/-- The per-file classification produced by buildOrganizePlan. -/
inductive OrgStatus where
  | skipMissing (missing : List Str)
  | alreadyInPlace
  | conflict
  | move (target : Str)
deriving DecidableEq

/-- The target relative path for a file that satisfies every level. -/
def organizeTargetRel (levels : List OrgLevel) (tagName : Int → Str) (fileName : Str) : Str :=
  goJoin (strOf "/")
    ((levels.map (fun lv => buildFolderSegment lv.tagIDs tagName)) ++ [fileName])

/-- The classification chain of buildOrganizePlan for one relevant file.
targetTaken holds for relpaths already reserved by another file of the
plan; diskHas holds for relpaths occupied on disk. -/
def classifyOrganizeItem (levels : List OrgLevel) (tagName : Int → Str) (hasTag : Int → Bool)
    (originalPath fileName : Str) (targetTaken diskHas : Str → Bool) : OrgStatus :=
  let missing := computeMissingTags levels tagName hasTag
  if missing ≠ [] then .skipMissing missing
  else
    let target := organizeTargetRel levels tagName fileName
    if target = originalPath then .alreadyInPlace
    else if targetTaken target then .conflict
    else if diskHas target then .conflict
    else .move target

/- ### Settings validation and the grammar-change trigger (app.go) -/

/-- App.validateSettings (the custom-character check only warns). -/
def validateSettings (s : AppSettings) : Bool :=
  (["brackets", "square_brackets", "parentheses", "custom"].contains s.tagRule.format) &&
    (["prefix", "suffix"].contains s.tagRule.position) &&
    (["combined", "individual"].contains s.tagRule.grouping) &&
    (if s.tagRule.format = "custom" then s.tagRule.customFormat.isSome else true)

/-- The formatChanged computation of App.UpdateSettings: format, position
and the spaces flag are compared, plus the custom triple when the new
format is custom; the grouping is not consulted. -/
def settingsFormatChanged (old nw : AppSettings) : Bool :=
  let base := (old.tagRule.format != nw.tagRule.format) ||
    (old.tagRule.position != nw.tagRule.position) ||
    (old.tagRule.addSpaces != nw.tagRule.addSpaces)
  if nw.tagRule.format = "custom" then
    match old.tagRule.customFormat, nw.tagRule.customFormat with
    | some oc, some nc =>
      base || (oc.opn != nc.opn) || (oc.cls != nc.cls) || (oc.sepStr != nc.sepStr)
    | _, _ => true
  else base

/-- Whether App.UpdateSettings launches batchUpdateFileNamesWithNewFormat:
the call validates, then fires the pass iff formatChanged holds and a
workspace is active. -/
def updateSettingsRerenameTriggered (old nw : AppSettings) (hasWorkspace : Bool) : Bool :=
  if validateSettings nw then settingsFormatChanged old nw && hasWorkspace else false

/-- The in-memory settings plus the value stored under app_settings. -/
structure SettingsEnvState where
  memSettings : AppSettings
  storedSettings : Option AppSettings
deriving DecidableEq

/-- App.UpdateSettings as a state transition: validation failures return
an error; otherwise the in-memory settings are replaced, the store write
is attempted, and success is reported even when that write fails. -/
def updateSettingsOp (st : SettingsEnvState) (nw : AppSettings) (saveOk : Bool) :
    SettingsEnvState × Bool :=
  if validateSettings nw = false then (st, false)
  else (⟨nw, if saveOk then some nw else st.storedSettings⟩, true)

/-- App.loadSettingsFromDB at startup: a missing or unreadable stored
value leaves the defaults in place. -/
def loadSettingsOnStartup (stored : Option AppSettings) : AppSettings :=
  stored.getD defaultSettings

/-- The tag grammar tuple as the specification defines it. -/
def specGrammarTuple (s : AppSettings) : String × String × Bool × String × Option CustomFmt :=
  (s.tagRule.format, s.tagRule.position, s.tagRule.addSpaces, s.tagRule.grouping,
    s.tagRule.customFormat)

/- ### Claim C1: filename grammar round trip -/

/-- The default grammar with individual grouping instead of combined. -/
def indivSettings : AppSettings :=
  ⟨⟨"square_brackets", none, "suffix", true, "individual"⟩⟩

/-- C1 counterexample: under the default grammar, encoding the tag list
[draft, 2025] onto report.pdf yields the scenario basename, but decoding
that basename recovers the single tag "draft, 2025" — not the two tags
draft and 2025 in either order — because the individual-layout parser
runs first and swallows the combined block whole. -/
theorem c1_roundtrip_counterexample :
    generateFileNameWithTags defaultSettings (strOf "report.pdf")
        [strOf "draft", strOf "2025"]
      = strOf "report [draft, 2025].pdf"
    ∧ parseTagsFromFileName defaultSettings (strOf "report [draft, 2025].pdf")
      = [strOf "draft, 2025"]
    ∧ ([strOf "draft, 2025"] : List Str) ≠ [strOf "draft", strOf "2025"]
    ∧ ([strOf "draft, 2025"] : List Str) ≠ [strOf "2025", strOf "draft"] := by
  refine ⟨by decide, by decide, by decide, by decide⟩

/- ### Claim C4: scan idempotence -/

/-- The columns of a files row other than id and created_at. -/
def fileRowCore (r : FileRow) : Int × String × String × Nat × String × Int × String :=
  (r.wsId, r.path, r.name, r.size, r.typ, r.modTime, r.hash)

/-- C4 counterexample: scanning the one-file workspace twice in a row —
even with an unchanged clock — does not leave the files table
byte-for-byte equal: the import session deletes and re-inserts every row,
so the AUTOINCREMENT ids move from [1, 2] to [3, 4]. -/
theorem c4_scan_counterexample :
    (scanWorkspace (scanWorkspace ⟨1, []⟩ 1 10 sampleTree) 1 10 sampleTree).rows
      ≠ (scanWorkspace ⟨1, []⟩ 1 10 sampleTree).rows
    ∧ (scanWorkspace ⟨1, []⟩ 1 10 sampleTree).rows.map (fun r => r.rid) = [1, 2]
    ∧ (scanWorkspace (scanWorkspace ⟨1, []⟩ 1 10 sampleTree) 1 10 sampleTree).rows.map
        (fun r => r.rid) = [3, 4] := by
  refine ⟨by decide, by decide, by decide⟩

/- ### Claim C5: the workspace root row -/

/-- C5 counterexample: scanning the one-file workspace records the root
itself — the scanned workspace owns a directory row whose relpath is the
empty string, produced by normalising the root's filepath.Rel result "."
without skipping the entry. -/
theorem c5_root_row_counterexample :
    (scanWorkspace ⟨1, []⟩ 1 10 sampleTree).rows.map (fun r => (r.wsId, r.path, r.typ))
      = [(1, "", "dir"), (1, "a.txt", "file")] := by decide

/- ### Claim C6: the grammar-change trigger -/

/-- C6 counterexample: changing only the grouping — combined to
individual — is a tag-grammar change under the specification's tuple, the
new settings validate, a workspace is active, and yet the re-rename pass
is not triggered, because UpdateSettings never compares the grouping. -/
theorem c6_grouping_counterexample :
    validateSettings indivSettings = true
    ∧ specGrammarTuple defaultSettings ≠ specGrammarTuple indivSettings
    ∧ updateSettingsRerenameTriggered defaultSettings indivSettings true = false := by
  refine ⟨by decide, by decide, by decide⟩

/- ### Claim C7: missing-tag classification -/

/-- Tag names of the worked organize example. -/
def c7TagName : Int → Str := fun i =>
  if i = 1 then strOf "a" else if i = 2 then strOf "b" else strOf "c"

/-- Levels of the worked organize example: three singleton levels. -/
def c7Levels : List OrgLevel := [⟨[1]⟩, ⟨[2]⟩, ⟨[3]⟩]

/-- The worked example file carries tag 1 only. -/
def c7HasTag : Int → Bool := fun i => i == 1

/-- C7 counterexample: a file carrying tag a from level one but missing
levels two and three is classified skip_missing_tags with missing list
[b, c] — the names missing from every deficient level together — which
equals no single level's difference L_i minus T_f. -/
theorem c7_missing_counterexample :
    computeMissingTags c7Levels c7TagName c7HasTag = [strOf "b", strOf "c"]
    ∧ classifyOrganizeItem c7Levels c7TagName c7HasTag (strOf "f.txt") (strOf "f.txt")
        (fun _ => false) (fun _ => false)
      = .skipMissing [strOf "b", strOf "c"]
    ∧ ∀ lv ∈ c7Levels,
        (lv.tagIDs.filter (fun i => !c7HasTag i)).map c7TagName ≠ [strOf "b", strOf "c"] := by
  refine ⟨by decide, by decide, by decide⟩

/- ### Claim C8: folder segment sanitisation -/

/-- Modelled from the spec: the §4.5 segment sanitisation as the
specification words it — the §4.3 character substitutions (visually
similar full-width or ASCII replacements, control characters below 32
stripped except tab, spaces and dots trimmed) extended with the slash
replacements and the stripping of square brackets, falling back to
未命名 when empty. -/
def specFolderSanitize (name : Str) : Str :=
  let replaced := name.map (fun c => if c = '/' || c = '\\' then '_' else sanChar c)
  let noCtl := replaced.filter (fun c => 32 ≤ c.toNat || c = '\t')
  let noBrackets := noCtl.filter (fun c => !(c = '[' || c = ']'))
  let trimmed := goTrimCutset [' ', '.'] noBrackets
  if trimmed = [] then strOf "未命名" else trimmed

/-- C8 counterexample: the planner's segment sanitiser maps the tag name
a&lt;b (with an ASCII less-than sign) to a_b — every invalid character
becomes an underscore — while the specification's §4.3-based sanitisation
would map it to a＜b with a full-width sign; the two differ, and the
emitted segment is [a_b]. -/
theorem c8_sanitize_counterexample :
    sanitizeFolderSegment (strOf "a<b") = strOf "a_b"
    ∧ specFolderSanitize (strOf "a<b") = strOf "a＜b"
    ∧ sanitizeFolderSegment (strOf "a<b") ≠ specFolderSanitize (strOf "a<b")
    ∧ buildFolderSegment [1] (fun _ => strOf "a<b") = strOf "[a_b]" := by
  refine ⟨by decide, by decide, by decide, by decide⟩

/- ### Claim C9: strip idempotence -/

/-- C9 counterexample: stripping is not idempotent on inputs with
trailing white space: one strip of x [a] (with a trailing space) only
trims the space — the sweep never sees a closing bracket at the end — and
a second strip then removes the newly exposed block. -/
theorem c9_strip_counterexample :
    removeTagsFromFileName defaultSettings (strOf "x [a] ") = strOf "x [a]"
    ∧ removeTagsFromFileName defaultSettings
        (removeTagsFromFileName defaultSettings (strOf "x [a] ")) = strOf "x"
    ∧ removeTagsFromFileName defaultSettings
        (removeTagsFromFileName defaultSettings (strOf "x [a] "))
      ≠ removeTagsFromFileName defaultSettings (strOf "x [a] ") := by
  refine ⟨by decide, by decide, by decide⟩

/- ### Claim C10: settings survive a failed store write -/

/-- C10: update_settings applies validated settings in memory and still
reports success when the store write fails; the stored app_settings value
is left at its previous content, so the grammar used for the rest of the
session differs from what the next startup would reload whenever that
stored value does not already equal the new settings. -/
theorem c10_settings_persist_failure (st : SettingsEnvState) (nw : AppSettings)
    (hv : validateSettings nw = true) :
    (updateSettingsOp st nw false).2 = true
    ∧ (updateSettingsOp st nw false).1.memSettings = nw
    ∧ (updateSettingsOp st nw false).1.storedSettings = st.storedSettings
    ∧ (loadSettingsOnStartup (updateSettingsOp st nw false).1.storedSettings ≠ nw →
        loadSettingsOnStartup (updateSettingsOp st nw false).1.storedSettings
          ≠ (updateSettingsOp st nw false).1.memSettings) := by
  simp [updateSettingsOp, hv]

/-- The settings written in the C10 witness run. -/
def c10NewSettings : AppSettings := ⟨⟨"parentheses", none, "prefix", true, "combined"⟩⟩

/-- C10 witness: a concrete failed-persistence run from the default
startup state; the call reports success, memory holds the new grammar,
the store still holds nothing, and the reloaded-on-restart grammar would
differ from the in-memory one. -/
theorem c10_settings_persist_failure_witness :
    validateSettings c10NewSettings = true
    ∧ ((updateSettingsOp ⟨defaultSettings, none⟩ c10NewSettings false).2 = true
      ∧ (updateSettingsOp ⟨defaultSettings, none⟩ c10NewSettings false).1.memSettings
          = c10NewSettings
      ∧ (updateSettingsOp ⟨defaultSettings, none⟩ c10NewSettings false).1.storedSettings
          = (⟨defaultSettings, none⟩ : SettingsEnvState).storedSettings
      ∧ (loadSettingsOnStartup
            (updateSettingsOp ⟨defaultSettings, none⟩ c10NewSettings false).1.storedSettings
            ≠ c10NewSettings →
          loadSettingsOnStartup
              (updateSettingsOp ⟨defaultSettings, none⟩ c10NewSettings false).1.storedSettings
            ≠ (updateSettingsOp ⟨defaultSettings, none⟩ c10NewSettings false).1.memSettings)) :=
  ⟨by decide, c10_settings_persist_failure ⟨defaultSettings, none⟩ c10NewSettings (by decide)⟩

/- ### Claim C2: rename and move atomicity -/

/-- A successful disk rename is undone exactly by the reverse rename. -/
theorem diskRename_back {d d1 : Disk} {src dst : String}
    (h : diskRename d src dst = some d1) : diskRename d1 dst src = some d := by
  unfold diskRename at h ⊢
  split at h
  case isTrue hc =>
    obtain ⟨hs, hd⟩ := hc
    obtain rfl : d1 = ⟨insert dst (d.entries.erase src)⟩ := by
      injection h with h'
      exact h'.symm
    have hne : src ≠ dst := fun he => hd (he ▸ hs)
    rw [if_pos]
    · congr 1
      have hnm : dst ∉ d.entries.erase src := by
        simp [Finset.mem_erase]
        intro _
        exact hd
      rw [Finset.erase_insert hnm, Finset.insert_erase hs]
    · refine ⟨Finset.mem_insert_self _ _, ?_⟩
      simp [Finset.mem_insert, Finset.mem_erase, hne]
  case isFalse => exact Option.noConfusion h

/-- The ignored-error reverse rename restores the pre-rename disk. -/
theorem diskRename_revert {d d1 : Disk} {src dst : String}
    (h : diskRename d src dst = some d1) : (diskRename d1 dst src).getD d1 = d := by
  rw [diskRename_back h]
  rfl

/-- Every error return of RenameFile carries the untouched prior state. -/
theorem renameFile_err_state {wsPath : String} {st : EngineState} {fileId : Int}
    {newName : String} {relOk dbOk : Bool} {st' : EngineState} {e : RenameError}
    (hcall : RenameFile wsPath st fileId newName relOk dbOk = (st', some e)) : st' = st := by
  unfold RenameFile at hcall
  repeat' split at hcall
  all_goals injection hcall with h1 h2
  all_goals
    first
    | exact h1.symm
    | exact Option.noConfusion h2
    | (rw [diskRename_revert (show diskRename _ _ _ = some _ by assumption)] at h1
       rw [← h1])

/-- Every error return of performOrganizeMove carries the prior state. -/
theorem organizeMove_err_state {wsPath : String} {st : EngineState} {item : OrgItem}
    {mkdirOk dbOk : Bool} {st' : EngineState} {rec : Option MoveRecord} {e : RenameError}
    (hcall : performOrganizeMove wsPath st item mkdirOk dbOk = (st', rec, some e)) :
    st' = st := by
  unfold performOrganizeMove at hcall
  repeat' split at hcall
  all_goals injection hcall with h1 h2
  all_goals
    first
    | exact h1.symm
    | (injection h2 with h2a h2b
       exact Option.noConfusion h2b)
    | (rw [diskRename_revert (show diskRename _ _ _ = some _ by assumption)] at h1
       rw [← h1])

/-- C2: whenever RenameFile or performOrganizeMove reports an error —
empty name, missing row, existing target, failed rename, failed relpath
computation, failed mkdir, stale plan or failed row update — the disk and
the files row are left exactly at their prior values; in the failure
paths entered after the forward rename succeeded this holds because the
reverse rename restores the original name before the original error is
reported. -/
theorem c2_rename_atomic (wsPath : String) (st : EngineState) (fileId : Int)
    (newName : String) (relOk dbOk : Bool) (item : OrgItem) (mkdirOk dbOk2 : Bool) :
    ((RenameFile wsPath st fileId newName relOk dbOk).2.isSome = true →
      (RenameFile wsPath st fileId newName relOk dbOk).1 = st)
    ∧ ((performOrganizeMove wsPath st item mkdirOk dbOk2).2.2.isSome = true →
      (performOrganizeMove wsPath st item mkdirOk dbOk2).1 = st) := by
  constructor
  · intro h
    rcases hr : RenameFile wsPath st fileId newName relOk dbOk with ⟨st', err⟩
    cases err with
    | none =>
      rw [hr] at h
      exact Bool.noConfusion h
    | some e => exact renameFile_err_state hr
  · intro h
    rcases hr : performOrganizeMove wsPath st item mkdirOk dbOk2 with ⟨st', rec, err⟩
    cases err with
    | none =>
      rw [hr] at h
      exact Bool.noConfusion h
    | some e => exact organizeMove_err_state hr

/-- The engine state of the C2 witness run: one file a.txt at the root. -/
def c2State : EngineState := ⟨⟨{"/ws/a.txt"}⟩, [⟨1, "a.txt", "a.txt"⟩]⟩

/-- The organize item of the C2 witness run. -/
def c2Item : OrgItem := ⟨1, "a.txt", "x/a.txt"⟩

/-- C2 witness: a rename whose relpath computation fails and an organize
move whose row update fails both report an error and leave the state
untouched. -/
theorem c2_rename_atomic_witness :
    ((RenameFile "/ws" c2State 1 "b.txt" false true).2.isSome = true
      ∧ (RenameFile "/ws" c2State 1 "b.txt" false true).1 = c2State)
    ∧ ((performOrganizeMove "/ws" c2State c2Item true false).2.2.isSome = true
      ∧ (performOrganizeMove "/ws" c2State c2Item true false).1 = c2State) :=
  ⟨⟨by decide,
      (c2_rename_atomic "/ws" c2State 1 "b.txt" false true c2Item true false).1 (by decide)⟩,
    ⟨by decide,
      (c2_rename_atomic "/ws" c2State 1 "b.txt" false true c2Item true false).2 (by decide)⟩⟩

/- ### Claim C3: undo of an organize operation -/

/-- The bottom-up recursion of the undo loop equals a plain left fold
over the reversed payload: the moves are processed in strict reverse
order of the journal payload. -/
theorem undoMovesGo_eq_foldRev (wsPath : String) (moves : List MoveRecord)
    (st : EngineState) : undoMovesGo wsPath moves st = undoFoldRev wsPath moves st := by
  induction moves with
  | nil => rfl
  | cons m rest ih =>
    simp only [undoMovesGo, ih, undoFoldRev, List.reverse_cons, List.foldl_append,
      List.foldl_cons, List.foldl_nil]

/-- Deleting an operation removes it from every later lookup. -/
theorem findOperation_delete (ops : List OperationRec) (id : Int) :
    findOperation (deleteOperation ops id) id = none := by
  induction ops with
  | nil => rfl
  | cons o rest ih =>
    by_cases h : o.opId = id
    · simp [deleteOperation, findOperation, h]
    · simp [deleteOperation, findOperation, h]

/-- C3: for a journal entry of kind organize belonging to the current
workspace, undo iterates the recorded moves in strict reverse payload
order — the run equals a left fold over the reversed list, each step a
rollbackOrganizeMove renaming the file back and updating its row — and
the entry is deleted exactly when the number of failed reverse moves is
zero. -/
theorem c3_undo_organize (wsPath : String) (curWsId : Int) (ops : List OperationRec)
    (st : EngineState) (opId : Int) (op : OperationRec)
    (hfind : findOperation ops opId = some op) (htype : op.opType = "organize")
    (hws : op.wsId = curWsId) (hpos : 0 < opId) :
    UndoOrganize wsPath curWsId ops st opId
      = .ok ((undoFoldRev wsPath op.moves st).1, (undoFoldRev wsPath op.moves st).2.1,
          (undoFoldRev wsPath op.moves st).2.2,
          if (undoFoldRev wsPath op.moves st).2.2 = 0 then deleteOperation ops opId else ops)
    ∧ (findOperation
          (if (undoFoldRev wsPath op.moves st).2.2 = 0 then deleteOperation ops opId else ops)
          opId = none
        ↔ (undoFoldRev wsPath op.moves st).2.2 = 0) := by
  have hle : ¬opId ≤ 0 := by omega
  constructor
  · unfold UndoOrganize
    rw [if_neg hle, hfind]
    simp [htype, hws, undoMovesGo_eq_foldRev]
  · by_cases hz : (undoFoldRev wsPath op.moves st).2.2 = 0
    · rw [if_pos hz]
      simp [findOperation_delete, hz]
    · rw [if_neg hz, hfind]
      simp [hz]

/-- The journal of the C3 witness run: one organize entry with one move. -/
def c3Ops : List OperationRec := [⟨5, "organize", 1, [⟨1, "a.txt", "x/a.txt"⟩]⟩]

/-- The engine state of the C3 witness run: the file sits at its moved
location and its row agrees. -/
def c3State : EngineState := ⟨⟨{"/ws/x/a.txt"}⟩, [⟨1, "a.txt", "x/a.txt"⟩]⟩

/-- C3 witness: undoing the concrete journal entry renames the file back,
reports one restoration and no failures, and deletes the entry. -/
theorem c3_undo_organize_witness :
    (findOperation c3Ops 5 = some ⟨5, "organize", 1, [⟨1, "a.txt", "x/a.txt"⟩]⟩
      ∧ (0 : Int) < 5)
    ∧ (UndoOrganize "/ws" 1 c3Ops c3State 5
        = .ok ((undoFoldRev "/ws" [⟨1, "a.txt", "x/a.txt"⟩] c3State).1,
            (undoFoldRev "/ws" [⟨1, "a.txt", "x/a.txt"⟩] c3State).2.1,
            (undoFoldRev "/ws" [⟨1, "a.txt", "x/a.txt"⟩] c3State).2.2,
            if (undoFoldRev "/ws" [⟨1, "a.txt", "x/a.txt"⟩] c3State).2.2 = 0
              then deleteOperation c3Ops 5 else c3Ops)
      ∧ (findOperation
            (if (undoFoldRev "/ws" [⟨1, "a.txt", "x/a.txt"⟩] c3State).2.2 = 0
              then deleteOperation c3Ops 5 else c3Ops) 5 = none
          ↔ (undoFoldRev "/ws" [⟨1, "a.txt", "x/a.txt"⟩] c3State).2.2 = 0)) :=
  ⟨⟨by decide, by decide⟩,
    c3_undo_organize "/ws" 1 c3Ops c3State 5 ⟨5, "organize", 1, [⟨1, "a.txt", "x/a.txt"⟩]⟩
      (by decide) (by decide) (by decide) (by decide)⟩

/-- The projected columns of a metadata row. -/
def fileMetaCore (m : FileMetadata) : Int × String × String × Nat × String × Int × String :=
  (m.wsId, m.path, m.name, m.size, m.typ, m.modTime, m.hash)

/-- Fresh insertion changes only ids and leaves the projected columns. -/
theorem insertRows_map_core (metas : List FileMetadata) (n : Nat) :
    ((insertRows n metas).1).map fileRowCore = metas.map fileMetaCore := by
  induction metas generalizing n with
  | nil => rfl
  | cons m rest ih => simp [insertRows, fileRowCore, fileMetaCore, ih]

/-- Rows inserted for a workspace survive the keep-other-workspaces filter
of no later import of the same workspace. -/
theorem insertRows_filter_ne (entries : List WalkEntry) (w now : Int) (n : Nat) :
    ((insertRows n (entries.map (metadataOfEntry w now))).1).filter
      (fun r => r.wsId != w) = [] := by
  induction entries generalizing n with
  | nil => rfl
  | cons e rest ih =>
    cases he : e.isDir <;> simp [insertRows, metadataOfEntry, he, ih]

/-- Filtering out a workspace twice equals filtering it out once. -/
theorem filter_wsId_idem (l : List FileRow) (w : Int) :
    (l.filter (fun r => r.wsId != w)).filter (fun r => r.wsId != w)
      = l.filter (fun r => r.wsId != w) := by
  induction l with
  | nil => rfl
  | cons r rest ih =>
    cases hb : (r.wsId != w) <;> simp [List.filter_cons, hb, ih]

/-- C4 amended: scanning the same unchanged tree twice leaves every
column of the files table equal except id and created_at — the second
run re-delivers exactly the projected rows of the first, while the
delete-and-reinsert import gives the re-scanned rows fresh AUTOINCREMENT
ids and a fresh insertion timestamp. -/
theorem c4_scan_idempotent_amended (tbl : FilesTable) (wsId : Int) (now1 now2 : Int)
    (tree : FsNode) :
    ((scanWorkspace (scanWorkspace tbl wsId now1 tree) wsId now2 tree).rows.map fileRowCore)
      = ((scanWorkspace tbl wsId now1 tree).rows.map fileRowCore) := by
  unfold scanWorkspace importReplaceFiles
  simp only [List.filter_append, List.map_append, filter_wsId_idem, insertRows_filter_ne,
    List.append_nil, List.nil_append, List.map_nil, insertRows_map_core]
  congr 1
  rw [List.map_map, List.map_map]
  congr 1
  funext e
  cases he : e.isDir <;> simp [metadataOfEntry, fileMetaCore, he, Function.comp]

/- claim C5 supporting lemmas -/

/-- String append acts as list append on the underlying runes. -/
theorem data_append (a b : String) : (a ++ b).data = a.data ++ b.data := by
  cases a
  cases b
  rfl

/-- Joining a non-empty last component never yields the empty relpath. -/
theorem joinRel_ne {p n : String} (hn : n ≠ "") : joinRel p n ≠ "" := by
  unfold joinRel
  split
  · exact hn
  · intro h
    have hd := congrArg String.data h
    rw [data_append, data_append] at hd
    simp at hd

mutual
/-- Entries below the root of the walk carry non-empty relpaths. -/
theorem walkNode_rel_ne (r : String) (c : FsNode) (h : namesOk c = true) :
    ∀ e ∈ walkNode r c, e.rel ≠ "" := by
  cases c with
  | mkFile n sz mt =>
    intro e he
    simp [walkNode] at he
    subst he
    exact joinRel_ne (by simpa [namesOk] using h)
  | mkDir n mt kids =>
    intro e he
    unfold walkNode at he
    split at he
    · simp at he
    · simp [namesOk] at h
      rcases List.mem_cons.mp he with he1 | he2
      · subst he1
        exact joinRel_ne h.1
      · exact walkKids_rel_ne (joinRel r n) kids h.2 e he2

/-- Entries of a sibling walk carry non-empty relpaths. -/
theorem walkKids_rel_ne (r : String) (ks : FsForest) (h : namesOkForest ks = true) :
    ∀ e ∈ walkKids r ks, e.rel ≠ "" := by
  cases ks with
  | nil =>
    intro e he
    simp [walkKids] at he
  | cons c cs =>
    intro e he
    simp only [walkKids] at he
    simp [namesOkForest] at h
    rcases List.mem_append.mp he with h1 | h2
    · exact walkNode_rel_ne r c h.1 e h1
    · exact walkKids_rel_ne r cs h.2 e h2
end

/-- The relpath column of a fresh insertion equals the metadata paths. -/
theorem insertRows_map_path (metas : List FileMetadata) (n : Nat) :
    ((insertRows n metas).1).map (fun r => r.path) = metas.map (fun m => m.path) := by
  induction metas generalizing n with
  | nil => rfl
  | cons m rest ih => simp [insertRows, ih]

/-- Rows inserted for a workspace all pass the same-workspace filter. -/
theorem insertRows_filter_eq (entries : List WalkEntry) (w now : Int) (n : Nat) :
    ((insertRows n (entries.map (metadataOfEntry w now))).1).filter
        (fun r => r.wsId == w)
      = (insertRows n (entries.map (metadataOfEntry w now))).1 := by
  induction entries generalizing n with
  | nil => rfl
  | cons e rest ih =>
    cases he : e.isDir <;> simp [insertRows, metadataOfEntry, he, ih]

/-- Rows kept from other workspaces never match the scanned workspace. -/
theorem filter_ne_then_eq (l : List FileRow) (w : Int) :
    (l.filter (fun r => r.wsId != w)).filter (fun r => r.wsId == w) = [] := by
  induction l with
  | nil => rfl
  | cons r rest ih =>
    by_cases hb : r.wsId = w <;> simp [List.filter_cons, hb, ih]

/-- The relpath recorded for a walk entry is the entry relpath. -/
theorem metadataOfEntry_path (w now : Int) (e : WalkEntry) :
    (metadataOfEntry w now e).path = e.rel := by
  cases he : e.isDir <;> simp [metadataOfEntry, he]

/-- C5 amended: a scan of an unskipped root records the root itself as a
directory row with relpath precisely the empty string, and every other
row of the scanned workspace carries a non-empty relpath naming an entry
strictly below the root. -/
theorem c5_scan_amended (tbl : FilesTable) (wsId now : Int) (name : String) (mt : Int)
    (kids : FsForest) (hskip : shouldSkipDir name = false)
    (hwf : namesOkForest kids = true) :
    ((scanWorkspace tbl wsId now (.mkDir name mt kids)).rows.filter
        (fun r => r.wsId == wsId)).map (fun r => r.path)
      = "" :: (walkKids "" kids).map (fun e => e.rel)
    ∧ ∀ p ∈ (walkKids "" kids).map (fun e => e.rel), p ≠ "" := by
  constructor
  · unfold scanWorkspace importReplaceFiles
    simp only [List.filter_append, filter_ne_then_eq, insertRows_filter_eq,
      List.nil_append, insertRows_map_path]
    simp only [walkTree, hskip, Bool.false_eq_true, if_false, List.map_cons, List.map_map]
    refine congrArg _ (List.map_congr_left fun e _ => ?_)
    simp [Function.comp, metadataOfEntry_path]
  · intro p hp
    rcases List.mem_map.mp hp with ⟨e, he, rfl⟩
    exact walkKids_rel_ne "" kids hwf e he

/-- C5 witness: the amended statement at the concrete one-file tree. -/
theorem c5_scan_amended_witness :
    (shouldSkipDir "ws" = false ∧ namesOkForest (.cons (.mkFile "a.txt" 3 100) .nil) = true)
    ∧ (((scanWorkspace ⟨1, []⟩ 1 10 (.mkDir "ws" 50 (.cons (.mkFile "a.txt" 3 100) .nil))).rows.filter
          (fun r => r.wsId == 1)).map (fun r => r.path)
        = "" :: (walkKids "" (.cons (.mkFile "a.txt" 3 100) .nil)).map (fun e => e.rel)
      ∧ ∀ p ∈ (walkKids "" (.cons (.mkFile "a.txt" 3 100) .nil)).map (fun e => e.rel), p ≠ "") :=
  ⟨⟨by decide, by decide⟩,
    c5_scan_amended ⟨1, []⟩ 1 10 "ws" 50 (.cons (.mkFile "a.txt" 3 100) .nil)
      (by decide) (by decide)⟩

/- ### C6 amended -/

/-- C6 amended: with validated new settings and an active workspace, the
workspace-wide re-rename pass is triggered exactly when the format, the
position or the spaces flag differ, or the new format is custom and the
custom opener, closer or separator differ (or either custom block is
absent); a change only in the grouping does not trigger it. -/
theorem c6_trigger_amended (old nw : AppSettings) (hasWs : Bool)
    (hv : validateSettings nw = true) :
    updateSettingsRerenameTriggered old nw hasWs = true ↔
      ((old.tagRule.format ≠ nw.tagRule.format ∨
          old.tagRule.position ≠ nw.tagRule.position ∨
          old.tagRule.addSpaces ≠ nw.tagRule.addSpaces ∨
          (nw.tagRule.format = "custom" ∧
            (old.tagRule.customFormat = none ∨ nw.tagRule.customFormat = none ∨
              ∃ oc nc, old.tagRule.customFormat = some oc ∧
                nw.tagRule.customFormat = some nc ∧
                (oc.opn ≠ nc.opn ∨ oc.cls ≠ nc.cls ∨ oc.sepStr ≠ nc.sepStr))))
        ∧ hasWs = true) := by
  unfold updateSettingsRerenameTriggered settingsFormatChanged
  rw [if_pos hv]
  by_cases hc : nw.tagRule.format = "custom"
  · cases ho : old.tagRule.customFormat with
    | none =>
      simp [hc, ho, Bool.and_eq_true, Bool.or_eq_true, bne_iff_ne]
    | some oc =>
      cases hn : nw.tagRule.customFormat with
      | none =>
        simp [hc, ho, hn, Bool.and_eq_true, Bool.or_eq_true, bne_iff_ne]
      | some nc =>
        simp [hc, ho, hn, Bool.and_eq_true, Bool.or_eq_true, bne_iff_ne]
        tauto
  · simp [hc, Bool.and_eq_true, Bool.or_eq_true, bne_iff_ne]
    tauto

/-- The new settings of the C6 witness run: the position moves to the
front, everything else stays default. -/
def c6PrefixSettings : AppSettings := ⟨⟨"square_brackets", none, "prefix", true, "combined"⟩⟩

/-- C6 witness: the amended trigger equivalence at a concrete validated
settings change with an active workspace. -/
theorem c6_trigger_amended_witness :
    validateSettings c6PrefixSettings = true
    ∧ (updateSettingsRerenameTriggered defaultSettings c6PrefixSettings true = true ↔
        ((defaultSettings.tagRule.format ≠ c6PrefixSettings.tagRule.format ∨
            defaultSettings.tagRule.position ≠ c6PrefixSettings.tagRule.position ∨
            defaultSettings.tagRule.addSpaces ≠ c6PrefixSettings.tagRule.addSpaces ∨
            (c6PrefixSettings.tagRule.format = "custom" ∧
              (defaultSettings.tagRule.customFormat = none ∨
                c6PrefixSettings.tagRule.customFormat = none ∨
                ∃ oc nc, defaultSettings.tagRule.customFormat = some oc ∧
                  c6PrefixSettings.tagRule.customFormat = some nc ∧
                  (oc.opn ≠ nc.opn ∨ oc.cls ≠ nc.cls ∨ oc.sepStr ≠ nc.sepStr))))
          ∧ true = true)) :=
  ⟨by decide, c6_trigger_amended defaultSettings c6PrefixSettings true (by decide)⟩

/- ### C7 amended -/

/-- C7 amended: the missing list of buildOrganizePlan is empty exactly
when every level is fully carried; a name sits in it exactly when it
names a tag of some level that the file does not carry; and the item is
classified skip_missing_tags with precisely that list exactly when the
list is non-empty — the list aggregates every deficient level, not a
single one. -/
theorem c7_missing_amended (levels : List OrgLevel) (tagName : Int → Str)
    (hasTag : Int → Bool) (originalPath fileName : Str) (targetTaken diskHas : Str → Bool) :
    (computeMissingTags levels tagName hasTag = [] ↔
        ∀ lv ∈ levels, ∀ i ∈ lv.tagIDs, hasTag i = true)
    ∧ (∀ n, n ∈ computeMissingTags levels tagName hasTag ↔
        ∃ lv ∈ levels, ∃ i ∈ lv.tagIDs, hasTag i = false ∧ tagName i = n)
    ∧ (classifyOrganizeItem levels tagName hasTag originalPath fileName targetTaken diskHas
          = .skipMissing (computeMissingTags levels tagName hasTag)
        ↔ computeMissingTags levels tagName hasTag ≠ []) := by
  refine ⟨?_, ?_, ?_⟩
  · simp [computeMissingTags, List.flatMap_eq_nil_iff, List.map_eq_nil_iff,
      List.filter_eq_nil_iff]
  · intro n
    simp [computeMissingTags, List.mem_flatMap, List.mem_map, List.mem_filter]
    tauto
  · by_cases hm : computeMissingTags levels tagName hasTag = []
    · rw [hm]
      simp only [classifyOrganizeItem, hm]
      simp only [ne_eq, not_true_eq_false, if_false]
      constructor
      · intro hcontra
        repeat' split at hcontra
        all_goals exact OrgStatus.noConfusion hcontra
      · intro hcontra
        exact hcontra.elim
    · simp [classifyOrganizeItem, hm]

/- ### C8 amended -/

/-- The characters the folder segment must never contain. -/
def badFolderChars : List Char :=
  ['<', '>', ':', '"', '/', '\\', '|', '?', '*', '[', ']']

/-- Bracket-wrapping a joined non-empty list equals concatenating the
individually wrapped blocks. -/
theorem goJoin_blocks (l : List Str) (hl : l ≠ []) :
    strOf "[" ++ goJoin (strOf "][") l ++ strOf "]"
      = (l.map (fun n => '[' :: (n ++ [']']))).foldr (fun a b => a ++ b) [] := by
  induction l with
  | nil => exact absurd rfl hl
  | cons x rest ih =>
    cases rest with
    | nil => simp [goJoin, strOf]
    | cons y t =>
      have ih2 := ih (by simp)
      simp only [goJoin, List.map_cons, List.foldr_cons] at ih2 ⊢
      rw [← ih2]
      simp [strOf, List.append_assoc]

/-- C8 amended: the level segment is the concatenation of one bracketed
block per tag id, in the order the level lists them, the sanitised name
never being empty and never containing an invalid character, a slash,
a backslash or a square bracket. -/
theorem c8_segment_amended (ids : List Int) (tagName : Int → Str) (hne : ids ≠ []) :
    buildFolderSegment ids tagName
      = ((ids.map (fun i => sanitizeFolderSegment (tagName i))).map
          (fun n => '[' :: (n ++ [']']))).foldr (fun a b => a ++ b) []
    ∧ ∀ name, sanitizeFolderSegment name ≠ []
        ∧ ∀ c ∈ sanitizeFolderSegment name, c ∉ badFolderChars := by
  constructor
  · unfold buildFolderSegment
    exact goJoin_blocks _ (by simpa using hne)
  · intro name
    constructor
    · unfold sanitizeFolderSegment
      split
      · decide
      · assumption
    · intro c hc
      unfold sanitizeFolderSegment at hc
      split at hc
      · rw [show strOf "未命名" = ['未', '命', '名'] from rfl] at hc
        simp only [List.mem_cons, List.not_mem_nil, or_false] at hc
        rcases hc with rfl | rfl | rfl <;> decide
      · rcases List.mem_filterMap.mp hc with ⟨a, _, hseg⟩
        unfold segChar at hseg
        split at hseg
        · exact Option.noConfusion hseg
        · split at hseg
          · injection hseg with hseg2
            subst hseg2
            decide
          · injection hseg with hseg2
            subst hseg2
            simp_all [badFolderChars]

/-- The level of the C8 witness run. -/
def c8WitnessIds : List Int := [1, 2]

/-- C8 witness: the amended segment statement at a two-tag level. -/
theorem c8_segment_amended_witness :
    (c8WitnessIds ≠ [])
    ∧ (buildFolderSegment c8WitnessIds (fun i => if i = 1 then strOf "a" else strOf "b/c")
        = ((c8WitnessIds.map (fun i => sanitizeFolderSegment
            ((fun i => if i = 1 then strOf "a" else strOf "b/c") i))).map
            (fun n => '[' :: (n ++ [']']))).foldr (fun a b => a ++ b) []
      ∧ ∀ name, sanitizeFolderSegment name ≠ []
          ∧ ∀ c ∈ sanitizeFolderSegment name, c ∉ badFolderChars) :=
  ⟨by decide, c8_segment_amended c8WitnessIds
    (fun i => if i = 1 then strOf "a" else strOf "b/c") (by decide)⟩

/- ### C9 amended -/

/-- dropWhile is idempotent. -/
theorem dropWhile_idem (p : Char → Bool) (l : Str) :
    (l.dropWhile p).dropWhile p = l.dropWhile p := by
  induction l with
  | nil => rfl
  | cons a t ih =>
    cases hp : p a
    · simp [List.dropWhile_cons, hp]
    · simp [List.dropWhile_cons, hp, ih]

/-- The head surviving dropWhile fails the predicate. -/
theorem dropWhile_head_false (p : Char → Bool) {l : Str} {a : Char} {t : Str}
    (h : l.dropWhile p = a :: t) : p a = false := by
  induction l with
  | nil => simp [List.dropWhile_nil] at h
  | cons x xs ih =>
    cases hp : p x
    · simp [List.dropWhile_cons, hp] at h
      rw [← h.1]
      exact hp
    · simp [List.dropWhile_cons, hp] at h
      exact ih h

/-- dropWhile returns a suffix of its input. -/
theorem dropWhile_suffix_of (p : Char → Bool) (l : Str) : l.dropWhile p <:+ l := by
  induction l with
  | nil => exact List.suffix_refl _
  | cons a t ih =>
    cases hp : p a
    · simp [List.dropWhile_cons, hp]
    · simp only [List.dropWhile_cons, hp]
      simp only [if_true]
      exact ih.trans (List.suffix_cons a t)

/-- Trimming the end yields a front segment of the input. -/
theorem trimEndSpc_isPre (s : Str) : trimEndSpc s <+: s := by
  have h := List.reverse_prefix.mpr (dropWhile_suffix_of isGoSpace s.reverse)
  rwa [List.reverse_reverse] at h

/-- Trimming the end twice equals trimming it once. -/
theorem trimEndSpc_idem (s : Str) : trimEndSpc (trimEndSpc s) = trimEndSpc s := by
  unfold trimEndSpc
  rw [List.reverse_reverse, dropWhile_idem]

/-- After a front trim, an end trim leaves no leading white space. -/
theorem trimStart_trimEnd_comm (s : Str) :
    trimStartSpc (trimEndSpc (trimStartSpc s)) = trimEndSpc (trimStartSpc s) := by
  cases hy : trimStartSpc s with
  | nil => rfl
  | cons a t =>
    have ha : isGoSpace a = false := dropWhile_head_false isGoSpace hy
    have hpre := trimEndSpc_isPre (a :: t)
    cases hz : trimEndSpc (a :: t) with
    | nil => rfl
    | cons b u =>
      rw [hz] at hpre
      rcases hpre with ⟨w, hw⟩
      simp only [List.cons_append] at hw
      injection hw with hw1 _
      subst hw1
      simp [trimStartSpc, List.dropWhile_cons, ha]

/-- strings.TrimSpace is idempotent. -/
theorem goTrimSpace_idem (s : Str) : goTrimSpace (goTrimSpace s) = goTrimSpace s := by
  unfold goTrimSpace
  rw [trimStart_trimEnd_comm]
  exact trimEndSpc_idem _

/-- The sweep loop returns a fixed point of the pass unchanged. -/
theorem stripLoop_fix {fmts : List (Str × Str)} {r : Str} {n : Nat}
    (h : stripPass fmts r = r) : stripLoop fmts (n + 1) r = r := by
  simp [stripLoop, h]

/-- C9 amended: whenever the stripped result is itself stable under one
sweep pass, stripping is idempotent — the second run exits its loop at
once and the final whitespace trim is idempotent. In general a trailing
space or tab can hide a tag block from the sweep that the final trim
then exposes, so a second strip may remove further blocks. -/
theorem c9_strip_amended (s : AppSettings) (b : Str)
    (h : stripPass (stripFormats s) (removeTagsFromFileName s b)
      = removeTagsFromFileName s b) :
    removeTagsFromFileName s (removeTagsFromFileName s b)
      = removeTagsFromFileName s b := by
  have hdef : removeTagsFromFileName s b
      = goTrimSpace (stripLoop (stripFormats s) 20 b) := rfl
  show goTrimSpace (stripLoop (stripFormats s) 20 (removeTagsFromFileName s b))
      = removeTagsFromFileName s b
  rw [show (20 : Nat) = 19 + 1 from rfl]
  rw [stripLoop_fix h]
  rw [hdef, goTrimSpace_idem]

/-- C9 witness: the amended idempotence applied to a stripped basename
that is stable under the sweep. -/
theorem c9_strip_amended_witness :
    stripPass (stripFormats defaultSettings)
        (removeTagsFromFileName defaultSettings (strOf "x [a]"))
      = removeTagsFromFileName defaultSettings (strOf "x [a]")
    ∧ removeTagsFromFileName defaultSettings
        (removeTagsFromFileName defaultSettings (strOf "x [a]"))
      = removeTagsFromFileName defaultSettings (strOf "x [a]") :=
  ⟨by decide, c9_strip_amended defaultSettings (strOf "x [a]") (by decide)⟩

/- ### C1 amended: the combined-grammar round trip, proved for every
safe tag list and stem under the default grammar -/

/-- Safe tag-name characters: printable ASCII, excluding every built-in
bracket, the separator comma, the extension dot and the characters
replaced by sanitizeFileNamePart. -/
def safeTagChar (c : Char) : Bool :=
  (33 ≤ c.toNat && c.toNat ≤ 126) &&
    !(c = '[' || c = ']' || c = '<' || c = '>' || c = '(' || c = ')' ||
      c = ',' || c = '.' || c = '|' || c = ':' || c = '"' || c = '?' || c = '*')

/-- A safe tag name: non-empty and made of safe characters. -/
def safeTagName (t : Str) : Bool := !(t = []) && t.all safeTagChar

/-- Stem characters that keep the stem clear of the square brackets and
of the extension dot. -/
def safeStemChar (c : Char) : Bool := !(c = '[' || c = ']' || c = '.')

/-- Unpacking the safe-tag-character predicate. -/
theorem safeTagChar_spec {c : Char} (h : safeTagChar c = true) :
    33 ≤ c.toNat ∧ c.toNat ≤ 126 ∧ c ≠ '[' ∧ c ≠ ']' ∧ c ≠ '<' ∧ c ≠ '>' ∧
      c ≠ '(' ∧ c ≠ ')' ∧ c ≠ ',' ∧ c ≠ '.' ∧ c ≠ '|' ∧ c ≠ ':' ∧
      c ≠ '"' ∧ c ≠ '?' ∧ c ≠ '*' := by
  simp only [safeTagChar, Bool.and_eq_true, Bool.not_eq_true', Bool.or_eq_false_iff,
    decide_eq_false_iff_not, decide_eq_true_eq] at h
  tauto

/-- Unpacking the safe-stem-character predicate. -/
theorem safeStemChar_spec {c : Char} (h : safeStemChar c = true) :
    c ≠ '[' ∧ c ≠ ']' ∧ c ≠ '.' := by
  simp only [safeStemChar, Bool.not_eq_true', Bool.or_eq_false_iff,
    decide_eq_false_iff_not] at h
  tauto

/-- A safe character is fixed by the replacement chain. -/
theorem sanChar_safe {c : Char} (h : safeTagChar c = true) : sanChar c = c := by
  obtain ⟨-, -, -, -, hlt, hgt, -, -, -, -, hpi, hco, hqu, hqm, hst⟩ := safeTagChar_spec h
  simp [sanChar, hpi, hlt, hgt, hco, hqu, hqm, hst]

/-- Printable ASCII at 33 or above is not Go white space. -/
theorem safe_not_space {c : Char} (h1 : 33 ≤ c.toNat) (h2 : c.toNat ≤ 126) :
    isGoSpace c = false := by
  cases hck : isGoSpace c
  · rfl
  · exfalso
    simp only [isGoSpace, Bool.or_eq_true, decide_eq_true_eq] at hck
    rcases hck with (((((((h | h) | h) | h) | h) | h) | h) | h) <;> subst h <;>
      revert h1 h2 <;> decide

/-- matchPositionsAux of a one-character pattern on the empty string. -/
theorem matchPositionsAux_one_nil (c : Char) (i : Nat) :
    matchPositionsAux [] [c] i = [] := by
  simp [matchPositionsAux, List.isPrefixOf]

/-- matchPositionsAux of a one-character pattern steps through a cons. -/
theorem matchPositionsAux_one_cons (c a : Char) (t : Str) (i : Nat) :
    matchPositionsAux (a :: t) [c] i
      = (if c = a then [i] else []) ++ matchPositionsAux t [c] (i + 1) := by
  conv_lhs => rw [matchPositionsAux]
  by_cases hca : c = a
  · subst hca
    simp [List.isPrefixOf]
  · simp [List.isPrefixOf, hca]

/-- A character that does not occur has no match positions. -/
theorem matchPositionsAux_one_not_mem {c : Char} {s : Str} (h : c ∉ s) (i : Nat) :
    matchPositionsAux s [c] i = [] := by
  induction s generalizing i with
  | nil => exact matchPositionsAux_one_nil c i
  | cons a t ih =>
    rw [matchPositionsAux_one_cons]
    have hca : ¬ c = a := fun hh => h (hh ▸ List.mem_cons_self a t)
    rw [if_neg hca, List.nil_append, ih (fun hm => h (List.mem_cons_of_mem a hm))]

/-- Match positions of a one-character pattern split along an append. -/
theorem matchPositionsAux_one_append (s₁ s₂ : Str) (c : Char) (i : Nat) :
    matchPositionsAux (s₁ ++ s₂) [c] i
      = matchPositionsAux s₁ [c] i ++ matchPositionsAux s₂ [c] (i + s₁.length) := by
  induction s₁ generalizing i with
  | nil => simp [matchPositionsAux_one_nil]
  | cons a t ih =>
    rw [List.cons_append, matchPositionsAux_one_cons, ih, matchPositionsAux_one_cons]
    have harith : i + 1 + t.length = i + (a :: t).length := by
      rw [List.length_cons]
      omega
    rw [harith, List.append_assoc]

/-- strings.LastIndex of an absent character fails. -/
theorem goLastIndex_one_none {s : Str} {c : Char} (h : c ∉ s) :
    goLastIndex s [c] = none := by
  unfold goLastIndex matchPositions
  rw [matchPositionsAux_one_not_mem h]
  rfl

/-- strings.LastIndex finds the unique occurrence of a character. -/
theorem goLastIndex_append_one (A C : Str) (c : Char) (hA : c ∉ A) (hC : c ∉ C) :
    goLastIndex (A ++ c :: C) [c] = some A.length := by
  unfold goLastIndex matchPositions
  rw [matchPositionsAux_one_append, matchPositionsAux_one_not_mem hA,
    matchPositionsAux_one_cons, if_pos rfl, matchPositionsAux_one_not_mem hC]
  simp

/-- filepath.Ext of a dot-free name is empty. -/
theorem goExt_of_not_mem {s : Str} (h : '.' ∉ s) : goExt s = [] := by
  unfold goExt
  rw [goLastIndex_one_none h]

/-- filepath.Ext splits off a final dot extension. -/
theorem goExt_append_dot (Y E : Str) (hY : '.' ∉ Y) (hE : '.' ∉ E) :
    goExt (Y ++ '.' :: E) = '.' :: E := by
  unfold goExt
  rw [goLastIndex_append_one Y E '.' hY hE]
  exact List.drop_left Y ('.' :: E)


/-- A list is a Boolean prefix of itself extended on the right. -/
theorem isPrefixOf_self_append (l t : Str) : l.isPrefixOf (l ++ t) = true := by
  induction l with
  | nil => simp [List.isPrefixOf]
  | cons a s ih => simp [List.isPrefixOf, ih]

/-- strings.HasSuffix accepts the appended suffix. -/
theorem goHasSuf_self_append (A B : Str) : goHasSuf (A ++ B) B = true := by
  unfold goHasSuf
  rw [List.isSuffixOf, List.reverse_append]
  exact isPrefixOf_self_append B.reverse A.reverse

/-- strings.HasSuffix on a one-character suffix that never occurs fails. -/
theorem goHasSuf_one_of_not_mem {s : Str} {c : Char} (h : c ∉ s) :
    goHasSuf s [c] = false := by
  unfold goHasSuf
  rw [List.isSuffixOf, List.reverse_singleton]
  cases hs : s.reverse with
  | nil => simp [List.isPrefixOf]
  | cons b u =>
    have hb : b ∈ s := by
      have hm : b ∈ s.reverse := by
        rw [hs]
        exact List.mem_cons_self b u
      exact List.mem_reverse.mp hm
    have hcb : ¬ c = b := fun hh => h (hh ▸ hb)
    simp [List.isPrefixOf, hcb]

/-- strings.TrimSuffix removes the appended suffix. -/
theorem goTrimEndStr_append (Y ext0 : Str) : goTrimEndStr (Y ++ ext0) ext0 = Y := by
  unfold goTrimEndStr
  rw [if_pos (goHasSuf_self_append Y ext0)]
  unfold goSlice
  rw [List.length_append, Nat.add_sub_cancel]
  rw [List.take_left, List.drop_zero]

/-- TrimRight returns a sublist. -/
theorem trimRightSp_sublist (s : Str) : List.Sublist (trimRightSp s) s := by
  have h1 := (dropWhile_suffix_of (fun c => c = ' ') s.reverse).sublist.reverse
  rwa [List.reverse_reverse] at h1

/-- TrimLeft returns a sublist. -/
theorem trimLeftSp_sublist (s : Str) : List.Sublist (trimLeftSp s) s :=
  (dropWhile_suffix_of (fun c => c = ' ') s).sublist

/-- A Go slice is a sublist of the sliced string. -/
theorem goSlice_sublist (s : Str) (a b : Nat) : List.Sublist (goSlice s a b) s := by
  unfold goSlice
  exact (List.drop_sublist _ _).trans (List.take_sublist _ _)

/-- The suffix-side block remover only ever drops characters. -/
theorem removeAllSuffixTags_sublist (f : Nat) (r o c : Str) :
    List.Sublist (removeAllSuffixTags f r o c) r := by
  induction f generalizing r with
  | zero => exact List.Sublist.refl r
  | succ n ih =>
    simp only [removeAllSuffixTags]
    by_cases h1 : goHasSuf r c = true
    · rw [if_pos h1]
      cases h2 : goLastIndex r o with
      | none => exact List.Sublist.refl r
      | some lastIdx =>
        cases h3 : isValidTagContent
            (goSlice r (lastIdx + o.length) (r.length - c.length)) o c with
        | true =>
          simp only [h3, if_true]
          exact (ih _).trans ((trimRightSp_sublist _).trans (goSlice_sublist r 0 _))
        | false =>
          simp only [h3]
          exact List.Sublist.refl r
    · rw [if_neg h1]

/-- The prefix-side block remover only ever drops characters. -/
theorem removeAllPrefixTags_sublist (f : Nat) (r o c : Str) :
    List.Sublist (removeAllPrefixTags f r o c) r := by
  induction f generalizing r with
  | zero => exact List.Sublist.refl r
  | succ n ih =>
    simp only [removeAllPrefixTags]
    by_cases h1 : goHasPre r o = true
    · rw [if_pos h1]
      cases h2 : goIndex r c with
      | none => exact List.Sublist.refl r
      | some firstIdx =>
        cases h3 : isValidTagContent (goSlice r o.length firstIdx) o c with
        | true =>
          simp only [h3, if_true]
          exact (ih _).trans ((trimLeftSp_sublist _).trans (List.drop_sublist _ _))
        | false =>
          simp only [h3]
          exact List.Sublist.refl r
    · rw [if_neg h1]

/-- One sweep of the strip loop only ever drops characters. -/
theorem stripPass_sublist (fmts : List (Str × Str)) (s0 : Str) :
    List.Sublist (stripPass fmts s0) s0 := by
  induction fmts generalizing s0 with
  | nil => exact List.Sublist.refl s0
  | cons pq rest ih =>
    have hstep : List.Sublist (if pq.1 = [] || pq.2 = [] then s0 else
        removeAllPrefixTags
          ((removeAllSuffixTags (s0.length + 1) s0 pq.1 pq.2).length + 1)
          (removeAllSuffixTags (s0.length + 1) s0 pq.1 pq.2) pq.1 pq.2) s0 := by
      split
      · exact List.Sublist.refl s0
      · exact (removeAllPrefixTags_sublist _ _ _ _).trans
          (removeAllSuffixTags_sublist _ _ _ _)
    unfold stripPass
    rw [List.foldl_cons]
    exact (ih _).trans hstep

/-- The bounded sweep loop only ever drops characters. -/
theorem stripLoop_sublist (fmts : List (Str × Str)) (n : Nat) (r : Str) :
    List.Sublist (stripLoop fmts n r) r := by
  induction n generalizing r with
  | zero => exact List.Sublist.refl r
  | succ m ih =>
    simp only [stripLoop]
    split
    · exact List.Sublist.refl r
    · exact (ih _).trans (stripPass_sublist fmts r)

/-- strings.TrimSpace returns a sublist. -/
theorem goTrimSpace_sublist (s : Str) : List.Sublist (goTrimSpace s) s := by
  have h1 : List.Sublist (trimStartSpc s) s := (dropWhile_suffix_of _ _).sublist
  have h2 := (dropWhile_suffix_of isGoSpace (trimStartSpc s).reverse).sublist.reverse
  rw [List.reverse_reverse] at h2
  exact h2.trans h1

/-- The stripper only ever drops characters of the basename. -/
theorem removeTags_sublist (s : AppSettings) (x : Str) :
    List.Sublist (removeTagsFromFileName s x) x := by
  unfold removeTagsFromFileName
  exact (goTrimSpace_sublist _).trans (stripLoop_sublist _ _ _)

/-- all is preserved by sublists. -/
theorem all_of_sublist {l₁ l₂ : Str} {p : Char → Bool} (hs : List.Sublist l₁ l₂)
    (h : l₂.all p = true) : l₁.all p = true := by
  rw [List.all_eq_true] at h ⊢
  exact fun c hc => h c (hs.subset hc)

/-- A character failing an all-satisfied predicate is absent. -/
theorem not_mem_of_all {l : Str} {p : Char → Bool} {c : Char} (h : l.all p = true)
    (hc : p c = false) : c ∉ l := by
  intro hm
  rw [List.all_eq_true] at h
  rw [h c hm] at hc
  exact Bool.noConfusion hc


/-- dropWhile is the identity when every element fails the predicate. -/
theorem dropWhile_all_false {p : Char → Bool} {l : Str}
    (h : ∀ c ∈ l, p c = false) : l.dropWhile p = l := by
  cases l with
  | nil => rfl
  | cons a u => simp [List.dropWhile_cons, h a (List.mem_cons_self a u)]

/-- strings.Trim is the identity when no character is in the cutset. -/
theorem goTrimCutset_all_id {cut : List Char} {l : Str}
    (h : ∀ c ∈ l, (decide (c ∈ cut) : Bool) = false) : goTrimCutset cut l = l := by
  unfold goTrimCutset
  rw [dropWhile_all_false h,
    dropWhile_all_false (fun c hc => h c (List.mem_reverse.mp hc))]
  exact List.reverse_reverse l

/-- Sanitisation fixes a safe tag name. -/
theorem sanitize_safe_id {t : Str} (h : safeTagName t = true) :
    sanitizeFileNamePart t = t := by
  rw [safeTagName, Bool.and_eq_true, Bool.not_eq_true', decide_eq_false_iff_not] at h
  obtain ⟨hne, hall⟩ := h
  rw [List.all_eq_true] at hall
  rw [show sanitizeFileNamePart t
      = (if goTrimCutset [' ', '.']
            ((t.map sanChar).filter (fun c => 32 ≤ c.toNat || c = '\t')) = []
         then ['_']
         else goTrimCutset [' ', '.']
            ((t.map sanChar).filter (fun c => 32 ≤ c.toNat || c = '\t')))
    from by
      unfold sanitizeFileNamePart
      rw [if_neg hne]]
  have hmap : t.map sanChar = t := by
    have hcg : t.map sanChar = t.map id :=
      List.map_congr_left (fun c hc => sanChar_safe (hall c hc))
    rw [hcg, List.map_id]
  rw [hmap]
  have hfil : t.filter (fun c => 32 ≤ c.toNat || c = '\t') = t := by
    apply List.filter_eq_self.mpr
    intro c hc
    have hsp := safeTagChar_spec (hall c hc)
    simp only [Bool.or_eq_true, decide_eq_true_eq]
    exact Or.inl (by omega)
  rw [hfil]
  have htr : goTrimCutset [' ', '.'] t = t := by
    apply goTrimCutset_all_id
    intro c hc
    obtain ⟨h33, -, -, -, -, -, -, -, -, hdot, -⟩ := safeTagChar_spec (hall c hc)
    have hsp2 : c ≠ ' ' := by
      intro hh
      subst hh
      exact absurd h33 (by decide)
    simp [hsp2, hdot]
  rw [htr, if_neg hne]

/-- Sanitisation fixes a square-bracket block whose interior is made of
replacement-fixed printable characters. -/
theorem sanitize_block_id {M : Str}
    (h : ∀ c ∈ M, sanChar c = c ∧ 32 ≤ c.toNat ∧ c.toNat ≤ 126) :
    sanitizeFileNamePart ('[' :: (M ++ [']'])) = '[' :: (M ++ [']']) := by
  rw [show sanitizeFileNamePart ('[' :: (M ++ [']']))
      = (if goTrimCutset [' ', '.']
            ((('[' :: (M ++ [']'])).map sanChar).filter
              (fun c => 32 ≤ c.toNat || c = '\t')) = []
         then ['_']
         else goTrimCutset [' ', '.']
            ((('[' :: (M ++ [']'])).map sanChar).filter
              (fun c => 32 ≤ c.toNat || c = '\t')))
    from by
      unfold sanitizeFileNamePart
      rw [if_neg (List.cons_ne_nil _ _)]]
  have hmap : ('[' :: (M ++ [']'])).map sanChar = '[' :: (M ++ [']']) := by
    rw [List.map_cons, List.map_append]
    have h2 : M.map sanChar = M := by
      have hcg : M.map sanChar = M.map id :=
        List.map_congr_left (fun c hc => (h c hc).1)
      rw [hcg, List.map_id]
    rw [h2, show sanChar '[' = '[' from by decide,
      show ([']'] : Str).map sanChar = [']'] from by decide]
  rw [hmap]
  have hfil : ('[' :: (M ++ [']'])).filter (fun c => 32 ≤ c.toNat || c = '\t')
      = '[' :: (M ++ [']']) := by
    apply List.filter_eq_self.mpr
    intro c hc
    rcases List.mem_cons.mp hc with rfl | hc2
    · decide
    rcases List.mem_append.mp hc2 with hm | he
    · simp only [Bool.or_eq_true, decide_eq_true_eq]
      exact Or.inl (h c hm).2.1
    · have hco : c = ']' := by simpa using he
      subst hco
      decide
  rw [hfil]
  have htr : goTrimCutset [' ', '.'] ('[' :: (M ++ [']'])) = '[' :: (M ++ [']']) := by
    unfold goTrimCutset
    have hfront : ('[' :: (M ++ [']'])).dropWhile (fun c => decide (c ∈ [' ', '.']))
        = '[' :: (M ++ [']']) := by
      rw [List.dropWhile_cons]
      simp
    rw [hfront]
    have hrev : ('[' :: (M ++ [']'])).reverse = ']' :: (M.reverse ++ ['[']) := by
      rw [List.reverse_cons, List.reverse_append]
      simp
    rw [hrev]
    rw [List.dropWhile_cons]
    simp only [List.mem_cons, List.not_mem_nil]
    rw [if_neg (by decide)]
    rw [← hrev, List.reverse_reverse]
  rw [htr]
  rw [if_neg (List.cons_ne_nil _ _)]

/-- Every character of a join comes from the separator or an element. -/
theorem goJoin_mem {sep : Str} {l : List Str} {c : Char} (h : c ∈ goJoin sep l) :
    c ∈ sep ∨ ∃ t ∈ l, c ∈ t := by
  induction l with
  | nil => exact absurd h (List.not_mem_nil c)
  | cons x r ih =>
    cases r with
    | nil =>
      right
      exact ⟨x, List.mem_cons_self x [], h⟩
    | cons y u =>
      rw [goJoin] at h
      rcases List.mem_append.mp h with h1 | h2
      · rcases List.mem_append.mp h1 with hx | hs
        · exact Or.inr ⟨x, List.mem_cons_self x (y :: u), hx⟩
        · exact Or.inl hs
      · rcases ih h2 with hs | ⟨t, ht, hc⟩
        · exact Or.inl hs
        · exact Or.inr ⟨t, List.mem_cons_of_mem x ht, hc⟩

/-- A join of non-empty pieces starting non-empty is non-empty. -/
theorem goJoin_ne_nil {sep : Str} {l : List Str} (hl : l ≠ [])
    (h : ∀ t ∈ l, t ≠ []) : goJoin sep l ≠ [] := by
  cases l with
  | nil => exact absurd rfl hl
  | cons x r =>
    cases r with
    | nil => exact h x (List.mem_cons_self x [])
    | cons y u =>
      rw [goJoin]
      intro hc
      obtain ⟨h1, -⟩ := List.append_eq_nil.mp hc
      obtain ⟨h2, -⟩ := List.append_eq_nil.mp h1
      exact h x (List.mem_cons_self x (y :: u)) h2

/-- The head of a join is the head of its first piece. -/
theorem goJoin_headq {sep : Str} {x : Str} {l : List Str} (hx : x ≠ []) :
    (goJoin sep (x :: l)).head? = x.head? := by
  cases l with
  | nil => rfl
  | cons y u =>
    rw [goJoin]
    cases x with
    | nil => exact absurd rfl hx
    | cons a t => simp

/-- The last element of a join of safe names is safe. -/
theorem goJoin_last_safe {sep : Str} {l : List Str}
    (h : ∀ t ∈ l, t ≠ [] ∧ t.all safeTagChar = true) (hl : l ≠ []) :
    ∀ c, (goJoin sep l).getLast? = some c → safeTagChar c = true := by
  induction l with
  | nil => exact absurd rfl hl
  | cons x r ih =>
    cases r with
    | nil =>
      intro c hc
      have hcm : c ∈ x := List.mem_of_mem_getLast? hc
      have := (h x (List.mem_cons_self x [])).2
      rw [List.all_eq_true] at this
      exact this c hcm
    | cons y u =>
      intro c hc
      rw [goJoin] at hc
      have hne : goJoin sep (y :: u) ≠ [] := by
        apply goJoin_ne_nil (List.cons_ne_nil y u)
        intro t ht
        exact (h t (List.mem_cons_of_mem x ht)).1
      rw [List.getLast?_append_of_ne_nil (x ++ sep) hne] at hc
      exact ih (fun t ht => h t (List.mem_cons_of_mem x ht)) (List.cons_ne_nil y u) c hc


/-- TrimSpace is the identity when both ends are not white space. -/
theorem goTrimSpace_eq_self {x : Str}
    (h1 : ∀ c, x.head? = some c → isGoSpace c = false)
    (h2 : ∀ c, x.getLast? = some c → isGoSpace c = false) :
    goTrimSpace x = x := by
  cases x with
  | nil => rfl
  | cons a t =>
    have hstart : trimStartSpc (a :: t) = a :: t := by
      unfold trimStartSpc
      rw [List.dropWhile_cons, h1 a rfl]
      rw [if_neg Bool.false_ne_true]
    unfold goTrimSpace
    rw [hstart]
    unfold trimEndSpc
    cases hrev : (a :: t).reverse with
    | nil => exact absurd hrev (by simp)
    | cons b u =>
      have hb : isGoSpace b = false := by
        apply h2
        rw [← List.head?_reverse, hrev]
        rfl
      rw [List.dropWhile_cons, hb]
      rw [if_neg Bool.false_ne_true]
      rw [← hrev, List.reverse_reverse]

/-- The back-to-front peeler returns nothing when the closer is absent. -/
theorem parseIndAtBack_no_cls {S : Str} (f : Nat) (o : Str) {c : Char} (h : c ∉ S) :
    parseIndAtBack f S o [c] = [] := by
  cases f with
  | zero => rfl
  | succ n =>
    simp only [parseIndAtBack]
    rw [goHasSuf_one_of_not_mem h]
    rw [if_neg Bool.false_ne_true]

/-- The back-to-front peeler on a bracket-free front part followed by one
square-bracket block yields exactly the trimmed block interior. -/
theorem parseIndAtBack_block (A B : Str) (f : Nat)
    (hAo : '[' ∉ A) (hAc : ']' ∉ A) (hBo : '[' ∉ B)
    (hBne : B ≠ []) :
    parseIndAtBack (f + 1) (A ++ ('[' :: (B ++ [']']))) ['['] [']']
      = [goTrimSpace B] := by
  have hX : A ++ ('[' :: (B ++ [']'])) = (A ++ ('[' :: B)) ++ [']'] := by
    simp [List.append_assoc]
  have hsuf : goHasSuf (A ++ ('[' :: (B ++ [']']))) [']'] = true := by
    rw [hX]
    exact goHasSuf_self_append _ _
  have hli : goLastIndex (A ++ ('[' :: (B ++ [']']))) ['['] = some A.length := by
    apply goLastIndex_append_one A (B ++ [']']) '[' hAo
    intro hm
    rcases List.mem_append.mp hm with hmm | hmm
    · exact hBo hmm
    · simp at hmm
  have hslice1 : goSlice (A ++ ('[' :: (B ++ [']']))) (A.length + 1)
      ((A ++ ('[' :: (B ++ [']']))).length - 1) = B := by
    unfold goSlice
    have hlen : (A ++ ('[' :: (B ++ [']']))).length - 1 = (A ++ ('[' :: B)).length := by
      simp only [List.length_append, List.length_cons, List.length_nil]
      omega
    rw [hlen, hX]
    rw [List.take_left]
    have h2 : A ++ ('[' :: B) = (A ++ ['[']) ++ B := by
      simp [List.append_assoc]
    have hlen2 : A.length + 1 = (A ++ ['[']).length := by
      simp
    rw [hlen2, h2, List.drop_left]
  have hslice0 : goSlice (A ++ ('[' :: (B ++ [']']))) 0 A.length = A := by
    unfold goSlice
    rw [List.take_left, List.drop_zero]
  have hrest : ']' ∉ trimRightSp A :=
    fun hm => hAc ((trimRightSp_sublist A).subset hm)
  simp only [parseIndAtBack, hsuf, hli, if_pos, List.length_singleton, hslice1, hslice0]
  rw [if_neg hBne]
  rw [parseIndAtBack_no_cls f ['['] hrest]
  rw [List.nil_append]


/-- Under the default grammar a non-empty safe tag list formats to a
single square-bracket block around the comma-joined names. -/
theorem formatTagsText_default {T : List Str} (hT : T ≠ [])
    (hsafe : ∀ t ∈ T, safeTagName t = true) :
    formatTagsText defaultSettings.tagRule T
      = '[' :: (goJoin (strOf ", ") T ++ [']']) := by
  have hmapT : T.map sanitizeFileNamePart = T := by
    have hcg : T.map sanitizeFileNamePart = T.map id :=
      List.map_congr_left (fun t ht => sanitize_safe_id (hsafe t ht))
    rw [hcg, List.map_id]
  unfold formatTagsText
  rw [if_neg hT,
    if_neg (show ¬defaultSettings.tagRule.grouping = "individual" from by decide)]
  rw [show fmtTriple defaultSettings.tagRule = (strOf "[", strOf "]", strOf ", ")
    from by decide]
  rw [hmapT]
  have hshape : (strOf "[", strOf "]", strOf ", ").1
        ++ goJoin (strOf "[", strOf "]", strOf ", ").2.2 T
        ++ (strOf "[", strOf "]", strOf ", ").2.1
      = '[' :: (goJoin (strOf ", ") T ++ [']']) := by
    show ['['] ++ goJoin (strOf ", ") T ++ [']'] = _
    rw [List.singleton_append, List.cons_append]
  rw [hshape]
  apply sanitize_block_id
  intro c hc
  rcases goJoin_mem hc with hs | ⟨t, ht, hct⟩
  · have hcs : c = ',' ∨ c = ' ' := by
      have hs2 : c ∈ ([',', ' '] : Str) := hs
      simpa using hs2
    rcases hcs with rfl | rfl
    · exact ⟨by decide, by decide, by decide⟩
    · exact ⟨by decide, by decide, by decide⟩
  · have hall := hsafe t ht
    rw [safeTagName, Bool.and_eq_true] at hall
    obtain ⟨-, hall2⟩ := hall
    rw [List.all_eq_true] at hall2
    obtain ⟨h33, h126, -⟩ := safeTagChar_spec (hall2 c hct)
    exact ⟨sanChar_safe (hall2 c hct), by omega, h126⟩

/-- Under the default grammar the encoder emits the cleaned stem, one
space, the combined block and the untouched extension. -/
theorem generate_default_eq (stem ext0 : Str) (T : List Str) (hT : T ≠ [])
    (hsafe : ∀ t ∈ T, safeTagName t = true)
    (hstem : stem.all safeStemChar = true)
    (hext : ext0 = [] ∨ ∃ E, ext0 = '.' :: E ∧ E.all safeStemChar = true) :
    generateFileNameWithTags defaultSettings (stem ++ ext0) T
      = ((removeTagsFromFileName defaultSettings stem ++ [' '])
          ++ ('[' :: (goJoin (strOf ", ") T ++ [']']))) ++ ext0 := by
  have hdotstem : '.' ∉ stem := not_mem_of_all hstem (by decide)
  have hExtEq : goExt (stem ++ ext0) = ext0 := by
    rcases hext with rfl | ⟨E, rfl, hE⟩
    · rw [List.append_nil]
      exact goExt_of_not_mem hdotstem
    · exact goExt_append_dot stem E hdotstem (not_mem_of_all hE (by decide))
  have hTrimEq : goTrimEndStr (stem ++ ext0) ext0 = stem := goTrimEndStr_append stem ext0
  have hfmt := formatTagsText_default hT hsafe
  unfold generateFileNameWithTags
  simp only [hExtEq, hTrimEq, hfmt]
  rw [if_neg hT,
    if_neg (List.cons_ne_nil ('[' : Char) (goJoin (strOf ", ") T ++ [']'])),
    if_neg (show ¬defaultSettings.tagRule.position = "prefix" from by decide),
    if_pos (show defaultSettings.tagRule.addSpaces = true from by decide)]

/-- Decoding a name made of a square-bracket-free front part, one block
and a well-formed extension returns exactly the block interior. -/
theorem parse_default_block (A J : Str)
    (hAo : '[' ∉ A) (hAc : ']' ∉ A) (hAd : '.' ∉ A)
    (hJo : '[' ∉ J) (hJd : '.' ∉ J) (hJne : J ≠ [])
    (hJtrim : goTrimSpace J = J)
    (ext0 : Str) (hext : ext0 = [] ∨ ∃ E, ext0 = '.' :: E ∧ '.' ∉ E) :
    parseTagsFromFileName defaultSettings
        ((A ++ ('[' :: (J ++ [']']))) ++ ext0) = [J] := by
  have hYd : '.' ∉ A ++ ('[' :: (J ++ [']'])) := by
    intro hm
    rcases List.mem_append.mp hm with h | h
    · exact hAd h
    rcases List.mem_cons.mp h with h | h
    · exact absurd h (by decide)
    rcases List.mem_append.mp h with h | h
    · exact hJd h
    · simp at h
  have hExtEq : goExt ((A ++ ('[' :: (J ++ [']']))) ++ ext0) = ext0 := by
    rcases hext with rfl | ⟨E, rfl, hE⟩
    · rw [List.append_nil]
      exact goExt_of_not_mem hYd
    · exact goExt_append_dot _ E hYd hE
  have hTrimEq : goTrimEndStr ((A ++ ('[' :: (J ++ [']']))) ++ ext0) ext0
      = A ++ ('[' :: (J ++ [']'])) := goTrimEndStr_append _ ext0
  have hind : parseIndividualTags defaultSettings.tagRule.position
      (A ++ ('[' :: (J ++ [']']))) ['['] [']'] = [J] := by
    unfold parseIndividualTags
    rw [if_neg (show ¬(defaultSettings.tagRule.position = "prefix") from by decide)]
    rw [parseIndAtBack_block A J _ hAo hAc hJo hJne, hJtrim]
  unfold parseTagsFromFileName
  simp only [hExtEq, hTrimEq]
  rw [show parseFormats defaultSettings
      = [(['['], [']'], strOf ", "), (['<'], ['>'], strOf ", "),
         (['('], [')'], strOf ", ")]
    from by decide]
  simp [tryParseFormats, hind]


/-- C1 amended: the specified round trip fails in general; what holds
instead under the default grammar (square brackets, suffix position,
spaces, combined grouping) is this. For every non-empty tag list T of
safe names — non-empty, printable ASCII, free of every built-in bracket,
the separator comma, the dot and the sanitised characters — and every
stem free of square brackets and dots, optionally carrying a dot
extension over such characters, decoding the basename produced by
encoding the stem with T returns exactly one tag: the comma-joined
block interior. That single tag equals the original list precisely when
T is a singleton, so the encoded tag list is recovered only in that
case. -/
theorem c1_decode_amended (stem ext0 : Str) (T : List Str) (hT : T ≠ [])
    (hsafe : ∀ t ∈ T, safeTagName t = true)
    (hstem : stem.all safeStemChar = true)
    (hext : ext0 = [] ∨ ∃ E, ext0 = '.' :: E ∧ E.all safeStemChar = true) :
    parseTagsFromFileName defaultSettings
        (generateFileNameWithTags defaultSettings (stem ++ ext0) T)
      = [goJoin (strOf ", ") T]
    ∧ (∀ t, T = [t] → goJoin (strOf ", ") T = t) := by
  have hparts : ∀ t ∈ T, t ≠ [] ∧ t.all safeTagChar = true := by
    intro t ht
    have h := hsafe t ht
    rw [safeTagName, Bool.and_eq_true, Bool.not_eq_true',
      decide_eq_false_iff_not] at h
    exact h
  have hclean : (removeTagsFromFileName defaultSettings stem).all safeStemChar
      = true := all_of_sublist (removeTags_sublist _ _) hstem
  have hAmem : ∀ c : Char, safeStemChar c = false →
      c ∉ removeTagsFromFileName defaultSettings stem ++ [' '] ∨ c = ' ' := by
    intro c hc
    by_cases hsp : c = ' '
    · exact Or.inr hsp
    · left
      intro hm
      rcases List.mem_append.mp hm with h | h
      · rw [List.all_eq_true] at hclean
        have h2 := hclean c h
        rw [hc] at h2
        exact Bool.noConfusion h2
      · have h2 : c = ' ' := by simpa using h
        exact hsp h2
  have hAo : '[' ∉ removeTagsFromFileName defaultSettings stem ++ [' '] := by
    rcases hAmem '[' (by decide) with h | h
    · exact h
    · exact absurd h (by decide)
  have hAc : ']' ∉ removeTagsFromFileName defaultSettings stem ++ [' '] := by
    rcases hAmem ']' (by decide) with h | h
    · exact h
    · exact absurd h (by decide)
  have hAd : '.' ∉ removeTagsFromFileName defaultSettings stem ++ [' '] := by
    rcases hAmem '.' (by decide) with h | h
    · exact h
    · exact absurd h (by decide)
  have hJchar : ∀ c ∈ goJoin (strOf ", ") T,
      safeTagChar c = true ∨ c = ',' ∨ c = ' ' := by
    intro c hc
    rcases goJoin_mem hc with hs | ⟨t, ht, hct⟩
    · right
      have hs2 : c ∈ ([',', ' '] : Str) := hs
      simpa using hs2
    · left
      have h2 := (hparts t ht).2
      rw [List.all_eq_true] at h2
      exact h2 c hct
  have hJo : '[' ∉ goJoin (strOf ", ") T := by
    intro hm
    rcases hJchar _ hm with h | h | h
    · exact absurd h (by decide)
    · exact absurd h (by decide)
    · exact absurd h (by decide)
  have hJd : '.' ∉ goJoin (strOf ", ") T := by
    intro hm
    rcases hJchar _ hm with h | h | h
    · exact absurd h (by decide)
    · exact absurd h (by decide)
    · exact absurd h (by decide)
  have hJne : goJoin (strOf ", ") T ≠ [] :=
    goJoin_ne_nil hT (fun t ht => (hparts t ht).1)
  have hhead : ∀ c, (goJoin (strOf ", ") T).head? = some c → isGoSpace c = false := by
    cases T with
    | nil => exact absurd rfl hT
    | cons x r =>
      intro c hc
      rw [goJoin_headq (hparts x (List.mem_cons_self x r)).1] at hc
      have hcm : c ∈ x := List.mem_of_mem_head? hc
      have hx := (hparts x (List.mem_cons_self x r)).2
      rw [List.all_eq_true] at hx
      obtain ⟨h33, h126, -⟩ := safeTagChar_spec (hx c hcm)
      exact safe_not_space h33 h126
  have hlast : ∀ c, (goJoin (strOf ", ") T).getLast? = some c →
      isGoSpace c = false := by
    intro c hc
    obtain ⟨h33, h126, -⟩ :=
      safeTagChar_spec (goJoin_last_safe hparts hT c hc)
    exact safe_not_space h33 h126
  have hJtrim : goTrimSpace (goJoin (strOf ", ") T) = goJoin (strOf ", ") T :=
    goTrimSpace_eq_self hhead hlast
  have hext2 : ext0 = [] ∨ ∃ E, ext0 = '.' :: E ∧ '.' ∉ E := by
    rcases hext with h | ⟨E, hE1, hE2⟩
    · exact Or.inl h
    · exact Or.inr ⟨E, hE1, not_mem_of_all hE2 (by decide)⟩
  constructor
  · rw [generate_default_eq stem ext0 T hT hsafe hstem hext]
    exact parse_default_block _ _ hAo hAc hAd hJo hJd hJne hJtrim ext0 hext2
  · intro t ht
    subst ht
    rfl

/-- C1 amended witness: the scenario instance — encoding draft and 2025
onto report.pdf yields the scenario basename and decoding it returns
the single joined tag "draft, 2025". -/
theorem c1_decode_amended_witness :
    (∀ t ∈ [strOf "draft", strOf "2025"], safeTagName t = true)
    ∧ (strOf "report").all safeStemChar = true
    ∧ parseTagsFromFileName defaultSettings
        (generateFileNameWithTags defaultSettings (strOf "report" ++ strOf ".pdf")
          [strOf "draft", strOf "2025"])
      = [goJoin (strOf ", ") [strOf "draft", strOf "2025"]]
    ∧ goJoin (strOf ", ") [strOf "draft", strOf "2025"] = strOf "draft, 2025"
    ∧ generateFileNameWithTags defaultSettings (strOf "report" ++ strOf ".pdf")
        [strOf "draft", strOf "2025"] = strOf "report [draft, 2025].pdf" := by
  refine ⟨by decide, by decide, ?_, by decide, by decide⟩
  exact (c1_decode_amended (strOf "report") (strOf ".pdf")
    [strOf "draft", strOf "2025"] (by decide) (by decide) (by decide)
    (Or.inr ⟨strOf "pdf", by decide, by decide⟩)).1


end TagExplorer
